import Mathlib

/-
  Verification of the deterministic core of the chef-to-ansible converter
  against its natural-language specification.

  The definitions below are a shallow embedding of the Python sources:
    * `src/resource_mapping.py`  (ResourceMapping registry)
    * `src/chef_parser.py`       (ChefParser recipe/resource extraction)
    * `src/llm_converter.py`     (`_convert_erb_to_jinja` template transpiler)
  Python strings are modelled as `List Char`, Python dicts as insertion-ordered
  association lists, and raised exceptions as `Except` values.
-/

namespace ChefToAnsible

/-! ## Association-list model of Python dicts

Python dicts preserve insertion order; assignment `d[k] = v` overwrites the
value of an existing key in place, otherwise appends a new binding. -/

/-- Python `d.get(k)` on an insertion-ordered association list. -/
def lookupA {κ α : Type} [DecidableEq κ] (m : List (κ × α)) (k : κ) : Option α :=
  match m with
  | [] => none
  | (k0, v0) :: rest => if k0 = k then some v0 else lookupA rest k

/-- Python `d[k] = v`: overwrite in place if present, else append. -/
def updA {κ α : Type} [DecidableEq κ] (m : List (κ × α)) (k : κ) (v : α) :
    List (κ × α) :=
  match m with
  | [] => [(k, v)]
  | (k0, v0) :: rest => if k0 = k then (k, v) :: rest else (k0, v0) :: updA rest k v

theorem lookupA_updA {κ α : Type} [DecidableEq κ] (m : List (κ × α)) (k j : κ) (v : α) :
    lookupA (updA m k v) j = if k = j then some v else lookupA m j := by
  induction m with
  | nil => simp [updA, lookupA]
  | cons p rest ih =>
    obtain ⟨k0, v0⟩ := p
    by_cases h0 : k0 = k
    · subst h0
      by_cases h1 : k0 = j
      · subst h1; simp [updA, lookupA]
      · simp [updA, lookupA, h1]
    · by_cases h1 : k0 = j
      · subst h1
        have hkj : ¬ k = k0 := fun h => h0 h.symm
        simp [updA, lookupA, h0, hkj]
      · simp [updA, lookupA, h0, h1, ih]

/-! ## Resource Mapping Registry (`src/resource_mapping.py`) -/

/-- One Ansible task as built by `ResourceMapping.transform_resource`: a Python
dict holding a `"name"` key plus a single module key whose value is the dict of
module parameters. -/
structure AnsibleTask where
  name : String
  module : String
  params : List (String × String)
deriving DecidableEq

/-- One entry of `ResourceMapping.mappings`.  In Python the entry is a dict with
keys `"ansible_module"` and `"property_mapping"`; inside `property_mapping` the
special key `"value_mapping"` holds a nested per-property value-substitution
table and is skipped when the renames are iterated
(`if chef_prop == "value_mapping": continue`), so it is split into its own
field here. -/
structure MappingEntry where
  ansible_module : String
  property_mapping : List (String × String)
  value_mapping : List (String × List (String × String)) := []
deriving DecidableEq

/-- `ResourceMapping._load_default_mappings` (the built-in table). -/
def defaultMappings : List (String × MappingEntry) :=
  [ ("mysql_database",
      { ansible_module := "community.mysql.mysql_db",
        property_mapping :=
          [("database_name", "name"), ("connection", "login_host"),
           ("user", "login_user"), ("password", "login_password")] }),
    ("postgresql_database",
      { ansible_module := "community.postgresql.postgresql_db",
        property_mapping :=
          [("database_name", "name"), ("connection", "login_host"),
           ("user", "login_user"), ("password", "login_password")] }),
    ("apache2_site",
      { ansible_module := "community.general.apache2_module",
        property_mapping := [("site_name", "name"), ("enable", "state")],
        value_mapping := [("enable", [("true", "present"), ("false", "absent")])] }),
    ("nginx_site",
      { ansible_module := "community.general.nginx_site",
        property_mapping := [("site_name", "name"), ("enable", "state")],
        value_mapping := [("enable", [("true", "present"), ("false", "absent")])] }),
    ("cron_job",
      { ansible_module := "ansible.builtin.cron",
        property_mapping :=
          [("name", "name"), ("command", "job"), ("minute", "minute"),
           ("hour", "hour"), ("day", "day"), ("month", "month"),
           ("weekday", "weekday"), ("user", "user")] }),
    ("systemd_unit",
      { ansible_module := "ansible.builtin.systemd",
        property_mapping := [("unit_name", "name"), ("action", "state")],
        value_mapping :=
          [("action",
            [("start", "started"), ("stop", "stopped"),
             ("enable", "enabled"), ("disable", "disabled")])] }) ]

/-- The registry: the mapping table plus programmatically registered custom
handler functions (`ResourceMapping.__init__` starts with empty handlers). -/
structure Registry where
  mappings : List (String × MappingEntry)
  custom_handlers : List (String × (List (String × String) → List AnsibleTask))

/-- `ResourceMapping._load_custom_mappings`: merge a custom table on top of the
current one, one dict assignment per entry (custom entries take precedence). -/
def loadCustomMappings (m : List (String × MappingEntry))
    (custom : List (String × MappingEntry)) : List (String × MappingEntry) :=
  custom.foldl (fun acc kv => updA acc kv.1 kv.2) m

/-- `ResourceMapping.__init__`: load defaults, then the optional custom table. -/
def mkRegistry (config : Option (List (String × MappingEntry))) : Registry :=
  { mappings :=
      match config with
      | none => defaultMappings
      | some custom => loadCustomMappings defaultMappings custom,
    custom_handlers := [] }

/-- A registry constructed with no config path: only the built-in table. -/
def defaultRegistry : Registry := mkRegistry none

/-- `ResourceMapping.get_mapping`. -/
def Registry.get_mapping (r : Registry) (ty : String) : Option MappingEntry :=
  lookupA r.mappings ty

/-- `ResourceMapping.has_custom_handler`. -/
def Registry.has_custom_handler (r : Registry) (ty : String) : Bool :=
  (lookupA r.custom_handlers ty).isSome

/-- `ResourceMapping.apply_custom_handler`. -/
def Registry.apply_custom_handler (r : Registry) (ty : String)
    (data : List (String × String)) : List AnsibleTask :=
  match lookupA r.custom_handlers ty with
  | some h => h data
  | none => []

/-- Python `str(value).lower()` (ASCII values). -/
def pyLower (s : String) : String := s.map Char.toLower

/-- The property-mapping loop of `transform_resource`: for each
`(chef_prop, ansible_prop)` rename, if the chef property is present, apply the
per-property value-substitution table (case-insensitive key; the Python guard
`if value_mapping and str(value).lower() in value_mapping` succeeds exactly
when the lookup below does) and store under the ansible property name. -/
def applyProps (e : MappingEntry) (data : List (String × String)) :
    List (String × String) :=
  e.property_mapping.foldl
    (fun acc cp =>
      match lookupA data cp.1 with
      | none => acc
      | some v =>
        let vm := (lookupA e.value_mapping cp.1).getD []
        let v' := match lookupA vm (pyLower v) with
          | some w => w
          | none => v
        updA acc cp.2 v')
    []

/-- `ResourceMapping.transform_resource`: custom handler first, then the
mapping table, else a placeholder diagnostic task; it never raises. -/
def Registry.transform_resource (r : Registry) (ty : String)
    (data : List (String × String)) : List AnsibleTask :=
  if r.has_custom_handler ty then
    r.apply_custom_handler ty data
  else
    match r.get_mapping ty with
    | none =>
        [{ name := "TODO: Convert Chef custom resource '" ++ ty ++ "'",
           module := "ansible.builtin.debug",
           params := [("msg", "Chef custom resource '" ++ ty ++
                             "' requires manual conversion")] }]
    | some e =>
        [{ name := "Converted from Chef custom resource '" ++ ty ++ "'",
           module := e.ansible_module,
           params := applyProps e data }]

/-! ### Supporting lemmas for the overlay (C4) -/

theorem lookupA_foldl_upd_not_mem {κ α : Type} [DecidableEq κ] (custom : List (κ × α))
    (m : List (κ × α)) (k : κ) (h : ∀ p ∈ custom, p.1 ≠ k) :
    lookupA (custom.foldl (fun acc kv => updA acc kv.1 kv.2) m) k = lookupA m k := by
  induction custom generalizing m with
  | nil => rfl
  | cons p rest ih =>
    have hp : p.1 ≠ k := h p (by simp)
    have hrest : ∀ q ∈ rest, q.1 ≠ k := fun q hq => h q (by simp [hq])
    simp only [List.foldl_cons]
    rw [ih (updA m p.1 p.2) hrest, lookupA_updA, if_neg hp]

theorem lookupA_loadCustomMappings (custom : List (String × MappingEntry))
    (m : List (String × MappingEntry)) (k : String) (e : MappingEntry)
    (hnodup : (custom.map Prod.fst).Nodup) (hov : lookupA custom k = some e) :
    lookupA (loadCustomMappings m custom) k = some e := by
  induction custom generalizing m with
  | nil => simp [lookupA] at hov
  | cons p rest ih =>
    obtain ⟨k0, v0⟩ := p
    simp only [List.map_cons, List.nodup_cons] at hnodup
    by_cases h0 : k0 = k
    · subst h0
      simp only [lookupA, eq_self_iff_true, if_true, Option.some.injEq] at hov
      subst hov
      have hrest : ∀ q ∈ rest, q.1 ≠ k0 := by
        intro q hq hqk
        exact hnodup.1 (hqk ▸ List.mem_map_of_mem Prod.fst hq)
      simp only [loadCustomMappings, List.foldl_cons]
      rw [lookupA_foldl_upd_not_mem rest _ k0 hrest, lookupA_updA, if_pos rfl]
    · simp only [lookupA, if_neg h0] at hov
      simpa only [loadCustomMappings, List.foldl_cons] using
        ih (updA m k0 v0) hnodup.2 hov

/-! ### Claim theorems for the registry -/

/-- C2: with only the built-in table loaded,
`transform("mysql_database", {database_name: "d", connection: "h", user: "u",
password: "p"})` returns exactly one task whose module is
`community.mysql.mysql_db` and whose parameters are exactly
`{name: "d", login_host: "h", login_user: "u", login_password: "p"}`. -/
theorem transform_mysql_database_builtin :
    defaultRegistry.transform_resource "mysql_database"
      [("database_name", "d"), ("connection", "h"), ("user", "u"), ("password", "p")] =
    [{ name := "Converted from Chef custom resource 'mysql_database'",
       module := "community.mysql.mysql_db",
       params := [("name", "d"), ("login_host", "h"),
                  ("login_user", "u"), ("login_password", "p")] }] := by
  decide

/-- C3: for every resource type with neither a registered custom handler nor a
mapping entry, and every property set, `transform_resource` returns exactly one
placeholder task whose display name embeds the unresolved type name and whose
`ansible.builtin.debug` payload surfaces the same type name.  The function is
total, so no error is ever raised. -/
theorem transform_unmapped_placeholder (r : Registry) (ty : String)
    (data : List (String × String))
    (hh : r.has_custom_handler ty = false) (hm : r.get_mapping ty = none) :
    r.transform_resource ty data =
      [{ name := "TODO: Convert Chef custom resource '" ++ ty ++ "'",
         module := "ansible.builtin.debug",
         params := [("msg", "Chef custom resource '" ++ ty ++
                           "' requires manual conversion")] }] := by
  simp [Registry.transform_resource, hh, hm]

/-- Witness for C3 at the spec's own example type. -/
theorem transform_unmapped_placeholder_witness :
    defaultRegistry.has_custom_handler "totally_unknown_type" = false ∧
    defaultRegistry.get_mapping "totally_unknown_type" = none ∧
    defaultRegistry.transform_resource "totally_unknown_type" [("x", "y")] =
      [{ name := "TODO: Convert Chef custom resource 'totally_unknown_type'",
         module := "ansible.builtin.debug",
         params := [("msg", "Chef custom resource 'totally_unknown_type'" ++
                           " requires manual conversion")] }] :=
  ⟨by decide, by decide,
   by simpa using
     transform_unmapped_placeholder defaultRegistry "totally_unknown_type"
       [("x", "y")] (by decide) (by decide)⟩

/-- C4: for a resource-type key present in both the built-in table and the
overlay, after the overlay is loaded `transform_resource` uses the overlay
entry's module identifier and property mappings — the result is built from the
overlay entry `e`, not from the built-in entry. -/
theorem transform_overlay_precedence (custom : List (String × MappingEntry))
    (ty : String) (e : MappingEntry) (data : List (String × String))
    (hnodup : (custom.map Prod.fst).Nodup)
    (hbuiltin : (lookupA defaultMappings ty).isSome = true)
    (hov : lookupA custom ty = some e) :
    (mkRegistry (some custom)).transform_resource ty data =
      [{ name := "Converted from Chef custom resource '" ++ ty ++ "'",
         module := e.ansible_module,
         params := applyProps e data }] := by
  have hmap : (mkRegistry (some custom)).get_mapping ty = some e :=
    lookupA_loadCustomMappings custom defaultMappings ty e hnodup hov
  have hh : (mkRegistry (some custom)).has_custom_handler ty = false := by
    simp [mkRegistry, Registry.has_custom_handler, lookupA]
  simp [Registry.transform_resource, hh, hmap]

/-- Witness for C4: overlay the built-in `mysql_database` entry and observe the
overlay's module in the output. -/
theorem transform_overlay_precedence_witness :
    ([("mysql_database",
       ({ ansible_module := "acme.db.mysql_db",
          property_mapping := [("database_name", "db")] } : MappingEntry))].map
        Prod.fst).Nodup ∧
    (lookupA defaultMappings "mysql_database").isSome = true ∧
    (mkRegistry (some [("mysql_database",
       { ansible_module := "acme.db.mysql_db",
         property_mapping := [("database_name", "db")] })])).transform_resource
        "mysql_database" [("database_name", "d")] =
      [{ name := "Converted from Chef custom resource 'mysql_database'",
         module := "acme.db.mysql_db",
         params := [("db", "d")] }] :=
  ⟨by decide, by decide,
   by simpa using
     transform_overlay_precedence
       [("mysql_database",
         { ansible_module := "acme.db.mysql_db",
           property_mapping := [("database_name", "db")] })]
       "mysql_database"
       { ansible_module := "acme.db.mysql_db",
         property_mapping := [("database_name", "db")] }
       [("database_name", "d")] (by decide) (by decide) (by decide)⟩

/-- C10: for every resource type with no registered custom handler and every
property set, `transform_resource` returns a list of exactly one task — both
the mapping-entry path and the placeholder path produce singletons; only a
custom handler can change the length. -/
theorem transform_singleton_without_handler (r : Registry) (ty : String)
    (data : List (String × String)) (hh : r.has_custom_handler ty = false) :
    (r.transform_resource ty data).length = 1 := by
  simp only [Registry.transform_resource, hh, Bool.false_eq_true, if_false]
  cases r.get_mapping ty <;> simp

/-- Witness for C10 on the default registry. -/
theorem transform_singleton_without_handler_witness :
    defaultRegistry.has_custom_handler "package_x" = false ∧
    (defaultRegistry.transform_resource "package_x" []).length = 1 :=
  ⟨by decide,
   transform_singleton_without_handler defaultRegistry "package_x" [] (by decide)⟩

/-! ## Recipe resource extraction (`ChefParser._extract_resources`)

The Python extractor runs
`re.finditer(r'(type1|type2|...)\s+['"]([^'"]+)['"]\s+do\s+(.*?)\s+end', content, re.DOTALL)`
and, inside every matched body,
`re.finditer(r'(\w+)\s+(.+?)(?=\n\s+\w+\s+|\Z)', body, re.DOTALL)`.
The functions below implement exactly the backtracking behaviour of those two
patterns (leftmost match, alternatives in order, greedy `\s+` tried longest
first, lazy `(.*?)`/`(.+?)` tried shortest first) over ASCII text. -/

/-- Python regex `\s` on the ASCII range. -/
def isPySpace (c : Char) : Bool :=
  c = ' ' || c = '\t' || c = '\n' || c = '\r' || c = '\x0b' || c = '\x0c'

/-- Python regex `\w` on the ASCII range. -/
def isWordChar (c : Char) : Bool :=
  ('a' ≤ c && c ≤ 'z') || ('A' ≤ c && c ≤ 'Z') || ('0' ≤ c && c ≤ '9') || c = '_'

/-- The character class `['"]`. -/
def isQuote (c : Char) : Bool := c = '\'' || c = '"'

/-- The fixed vocabulary of resource-type keywords, in the alternation order of
the Python pattern (no keyword is a prefix of another, so at any position at
most one alternative can match). -/
def resourceTypes : List (List Char) :=
  ["package", "service", "template", "cookbook_file", "file", "directory",
   "execute", "bash", "ruby_block", "cron", "user", "group", "mount",
   "remote_file", "git", "apt_repository", "yum_repository", "apt_update"].map
    String.toList

/-- One extracted resource, as the dict built by `_extract_resources`. -/
structure ResourceRecord where
  type : List Char
  name : List Char
  properties : List (List Char × List Char)
  raw_content : List Char
deriving DecidableEq

/-! ### The property pattern `(\w+)\s+(.+?)(?=\n\s+\w+\s+|\Z)` -/

/-- The lookahead `\n\s+\w+\s+` (each run greedy; the classes are disjoint from
what follows them, so matching is deterministic). -/
def propBoundary : List Char → Bool
  | '\n' :: rest =>
      let ws1 := rest.takeWhile isPySpace
      let r1 := rest.drop ws1.length
      let w := r1.takeWhile isWordChar
      let r2 := r1.drop w.length
      !ws1.isEmpty && !w.isEmpty &&
        (match r2 with
         | c :: _ => isPySpace c
         | [] => false)
  | _ => false

/-- Lazy extension of the property value `(.+?)` (DOTALL): after the first
value character, stop at the first position satisfying the lookahead, or at
the end of the body (`\Z`).  Returns (value chars, rest at the lookahead). -/
def propValueScan : List Char → (List Char × List Char)
  | [] => ([], [])
  | c :: rest =>
    if propBoundary rest then ([c], rest)
    else
      let (v, r) := propValueScan rest
      (c :: v, r)

/-- Match the property pattern at the head of `s`.  The greedy `\s+` is tried
longest first; it only backtracks (by exactly one character, donating it to the
value) when the whitespace runs to the end of the body, where the `\Z`
alternative of the lookahead accepts an empty remainder. -/
def matchPropAt (s : List Char) : Option ((List Char × List Char) × List Char) :=
  let w := s.takeWhile isWordChar
  if w.isEmpty then none
  else
    let r1 := s.drop w.length
    let ws := r1.takeWhile isPySpace
    if ws.isEmpty then none
    else
      match r1.drop ws.length with
      | [] =>
          -- `\s+` backtracks one character which becomes the whole value
          if 2 ≤ ws.length then
            match ws.getLast? with
            | some c => some ((w, [c]), [])
            | none => none
          else none
      | c :: rest =>
          if propBoundary rest then some ((w, [c]), rest)
          else
            let (v, r) := propValueScan rest
            some ((w, c :: v), r)

theorem propValueScan_length (s : List Char) :
    (propValueScan s).2.length ≤ s.length := by
  induction s with
  | nil => simp [propValueScan]
  | cons c rest ih =>
    simp only [propValueScan]
    split
    · simp
    · simpa using Nat.le_succ_of_le ih

theorem matchPropAt_length (s : List Char) (p : (List Char × List Char))
    (after : List Char) (h : matchPropAt s = some (p, after)) :
    after.length < s.length := by
  simp only [matchPropAt] at h
  split at h
  · exact absurd h (by simp)
  · rename_i hw
    have hwlen : 1 ≤ (s.takeWhile isWordChar).length := by
      cases hwt : s.takeWhile isWordChar with
      | nil => rw [hwt] at hw; simp at hw
      | cons a l => simp
    have hwle : (s.takeWhile isWordChar).length ≤ s.length :=
      (List.takeWhile_sublist _).length_le
    split at h
    · exact absurd h (by simp)
    · rename_i hws
      have hwslen :
          1 ≤ ((s.drop (s.takeWhile isWordChar).length).takeWhile isPySpace).length := by
        cases hwst : (s.drop (s.takeWhile isWordChar).length).takeWhile isPySpace with
        | nil => rw [hwst] at hws; simp at hws
        | cons a l => simp
      split at h
      · split at h
        · split at h
          · simp only [Option.some.injEq, Prod.mk.injEq] at h
            rw [← h.2]
            simp only [List.length_nil]
            omega
          · exact absurd h (by simp)
        · exact absurd h (by simp)
      · rename_i c rest hr
        have hreslen : rest.length + 1 +
            ((s.drop (s.takeWhile isWordChar).length).takeWhile isPySpace).length +
            (s.takeWhile isWordChar).length ≤ s.length := by
          have h2 := congrArg List.length hr
          simp only [List.length_drop, List.length_cons] at h2
          omega
        split at h
        · simp only [Option.some.injEq, Prod.mk.injEq] at h
          rw [← h.2]
          simp only [List.length_cons] at hreslen
          omega
        · have hscan := propValueScan_length rest
          simp only [Option.some.injEq, Prod.mk.injEq] at h
          rw [← h.2]
          omega

/-- All matches of the property pattern over a body, in scan order
(`re.finditer`: leftmost, non-overlapping).  The fuel is a termination device;
every step consumes at least one character, so `body.length` always suffices. -/
def propMatchesAux : Nat → List Char → List (List Char × List Char)
  | 0, _ => []
  | _ + 1, [] => []
  | fuel + 1, c :: rest =>
    match matchPropAt (c :: rest) with
    | some (p, after) => p :: propMatchesAux fuel after
    | none => propMatchesAux fuel rest

def propMatches (body : List Char) : List (List Char × List Char) :=
  propMatchesAux body.length body

/-- Python `str.strip()` (ASCII whitespace). -/
def pyStrip (s : List Char) : List Char :=
  ((s.dropWhile isPySpace).reverse.dropWhile isPySpace).reverse

/-- The property loop of `_extract_resources`:
`properties[prop_name] = prop_value.strip()` over the matches in order — dict
assignment, so a repeated property name keeps its first position but the last
value. -/
def extractProperties (body : List Char) : List (List Char × List Char) :=
  (propMatches body).foldl (fun acc p => updA acc p.1 (pyStrip p.2)) []

/-! ### The resource-block pattern `(types)\s+['"]([^'"]+)['"]\s+do\s+(.*?)\s+end` -/

/-- Literal prefix test (decidable-equality form of `List.isPrefixOf`). -/
def isPfx {α : Type} [DecidableEq α] : List α → List α → Bool
  | [], _ => true
  | _ :: _, [] => false
  | a :: as, b :: bs => a = b && isPfx as bs

theorem isPfx_length {α : Type} [DecidableEq α] :
    ∀ (l1 l2 : List α), isPfx l1 l2 = true → l1.length ≤ l2.length := by
  intro l1
  induction l1 with
  | nil => intro l2 _; simp
  | cons a as ih =>
    intro l2 h
    cases l2 with
    | nil => cases h
    | cons b bs =>
      simp only [isPfx, Bool.and_eq_true] at h
      simpa using ih bs h.2

/-- Find the first resource-type keyword that is a prefix of `s` (the Python
alternation tries the alternatives in order; no keyword is a prefix of
another, so at most one can match at a given position). -/
def matchType (s : List Char) : Option (List Char) :=
  resourceTypes.find? (fun t => isPfx t s)

/-- A nonempty greedy run of characters satisfying `p` (`\s+`, `[^'"]+`);
each use is followed by a character outside the class, so the maximal run is
the only candidate. -/
def pRun (p : Char → Bool) (s : List Char) : Option (List Char × List Char) :=
  let w := s.takeWhile p
  if w.isEmpty then none else some (w, s.drop w.length)

/-- A single `['"]` character. -/
def pQuote : List Char → Option (List Char)
  | c :: rest => if isQuote c then some rest else none
  | [] => none

/-- A literal. -/
def pLit (lit : List Char) (s : List Char) : Option (List Char) :=
  if isPfx lit s then some (s.drop lit.length) else none

/-- One candidate close `\s+end`: a nonempty whitespace run followed by the
literal `end` (the run of a successful close is necessarily maximal, because
`end` starts with a non-space character).  Returns (rest after `end`,
characters consumed). -/
def closeAt (s : List Char) : Option (List Char × Nat) :=
  let ws := s.takeWhile isPySpace
  if ws.isEmpty then none
  else
    let r := s.drop ws.length
    if isPfx ['e', 'n', 'd'] r then some (r.drop 3, ws.length + 3) else none

/-- The lazy scan of `(.*?)\s+end`: the shortest body followed by a close.
Returns (body, rest after `end`, characters consumed). -/
def findClose : List Char → Option (List Char × List Char × Nat)
  | [] => none
  | c :: rest =>
    match closeAt (c :: rest) with
    | some (r, n) => some ([], r, n)
    | none =>
      match findClose rest with
      | some (body, r, n) => some (c :: body, r, n + 1)
      | none => none

/-- Match `\s+(.*?)\s+end` (the part of the block pattern after `do`).  The
leading `\s+` is greedy, so with a maximal run of length `W` the body starts
after the run; when no close exists from there the only remaining possibility
is `W ≥ 2` with `end` directly after the run — the greedy `\s+` backtracks one
character, which becomes the `\s+` of the close, and the body stays empty. -/
def matchBody (s : List Char) : Option (List Char × List Char × Nat) :=
  let ws := s.takeWhile isPySpace
  if ws.isEmpty then none
  else
    let afterW := s.drop ws.length
    match findClose afterW with
    | some (body, r, n) => some (body, r, ws.length + n)
    | none =>
      if 2 ≤ ws.length && isPfx ['e', 'n', 'd'] afterW then
        some ([], afterW.drop 3, ws.length + 3)
      else none

/-- Match the whole resource pattern at the head of `s`; on success, return
the record (with `raw_content = match.group(0)`) and the rest of the input. -/
def matchResourceAt (s : List Char) : Option (ResourceRecord × List Char) :=
  match matchType s with
  | none => none
  | some t =>
    match pRun isPySpace (s.drop t.length) with
    | none => none
    | some (w1, r2) =>
      match pQuote r2 with
      | none => none
      | some r3 =>
        match pRun (fun c => !isQuote c) r3 with
        | none => none
        | some (nm, r4) =>
          match pQuote r4 with
          | none => none
          | some r5 =>
            match pRun isPySpace r5 with
            | none => none
            | some (w2, r6) =>
              match pLit ['d', 'o'] r6 with
              | none => none
              | some r7 =>
                match matchBody r7 with
                | none => none
                | some (body, rest, nb) =>
                  let consumed := t.length + w1.length + 1 + nm.length + 1 +
                                  w2.length + 2 + nb
                  some ({ type := t, name := nm,
                          properties := extractProperties body,
                          raw_content := s.take consumed }, rest)

/-! ### Bookkeeping lemmas: each matcher consumes what it says -/

theorem pRun_spec (p : Char → Bool) (s w r : List Char)
    (h : pRun p s = some (w, r)) :
    r = s.drop w.length ∧ 1 ≤ w.length := by
  simp only [pRun] at h
  split at h
  · cases h
  · rename_i hw
    simp only [Option.some.injEq, Prod.mk.injEq] at h
    obtain ⟨h1, h2⟩ := h
    subst h1
    refine ⟨h2.symm, ?_⟩
    cases hwt : s.takeWhile p with
    | nil => rw [hwt] at hw; simp at hw
    | cons a l => simp [hwt]

theorem pQuote_spec (s r : List Char) (h : pQuote s = some r) :
    r = s.drop 1 ∧ 1 ≤ s.length := by
  cases s with
  | nil => cases h
  | cons c rest =>
    simp only [pQuote] at h
    split at h
    · simp only [Option.some.injEq] at h
      subst h
      simp
    · cases h

theorem pLit_spec (lit s r : List Char) (h : pLit lit s = some r) :
    r = s.drop lit.length ∧ lit.length ≤ s.length := by
  simp only [pLit] at h
  split at h
  · rename_i hp
    simp only [Option.some.injEq] at h
    subst h
    exact ⟨rfl, isPfx_length _ _ hp⟩
  · cases h

theorem closeAt_spec (s r : List Char) (n : Nat) (h : closeAt s = some (r, n)) :
    r = s.drop n ∧ 4 ≤ n := by
  simp only [closeAt] at h
  split at h
  · cases h
  · rename_i hw
    split at h
    · simp only [Option.some.injEq, Prod.mk.injEq] at h
      obtain ⟨h1, h2⟩ := h
      subst h2
      have hwlen : 1 ≤ (s.takeWhile isPySpace).length := by
        cases hwt : s.takeWhile isPySpace with
        | nil => rw [hwt] at hw; simp at hw
        | cons a l => simp [hwt]
      constructor
      · rw [← h1, List.drop_drop, Nat.add_comm]
      · omega
    · cases h

theorem findClose_spec (s : List Char) :
    ∀ b r n, findClose s = some (b, r, n) → r = s.drop n ∧ 1 ≤ n := by
  induction s with
  | nil => intro b r n h; cases h
  | cons c rest ih =>
    intro b r n h
    simp only [findClose] at h
    rcases hca : closeAt (c :: rest) with _ | ⟨r0, n0⟩
    · simp only [hca] at h
      rcases hrec : findClose rest with _ | ⟨⟨body0, r0, n0⟩⟩
      · simp only [hrec] at h
        exact Option.noConfusion h
      · simp only [hrec, Option.some.injEq, Prod.mk.injEq] at h
        obtain ⟨h1, h2, h3⟩ := h
        subst h2; subst h3
        obtain ⟨hr, hn⟩ := ih body0 r0 n0 hrec
        refine ⟨?_, by omega⟩
        rw [hr, List.drop_succ_cons]
    · simp only [hca, Option.some.injEq, Prod.mk.injEq] at h
      obtain ⟨h1, h2, h3⟩ := h
      subst h2; subst h3
      obtain ⟨hr, hn⟩ := closeAt_spec _ _ _ hca
      exact ⟨hr, by omega⟩

theorem matchBody_spec (s b r : List Char) (n : Nat)
    (h : matchBody s = some (b, r, n)) : r = s.drop n ∧ 1 ≤ n := by
  simp only [matchBody] at h
  split at h
  · cases h
  · rcases hfc : findClose (List.drop (List.takeWhile isPySpace s).length s) with
      _ | ⟨⟨body0, r0, n0⟩⟩
    · simp only [hfc] at h
      split at h
      · simp only [Option.some.injEq, Prod.mk.injEq] at h
        obtain ⟨h1, h2, h3⟩ := h
        subst h2; subst h3
        constructor
        · rw [List.drop_drop, Nat.add_comm]
        · omega
      · cases h
    · simp only [hfc, Option.some.injEq, Prod.mk.injEq] at h
      obtain ⟨h1, h2, h3⟩ := h
      subst h2; subst h3
      obtain ⟨hr, hn⟩ := findClose_spec _ body0 r0 n0 hfc
      constructor
      · rw [hr, List.drop_drop, Nat.add_comm]
      · omega

theorem matchType_spec (s t : List Char) (h : matchType s = some t) :
    isPfx t s = true ∧ t ∈ resourceTypes := by
  refine ⟨?_, List.mem_of_find?_eq_some h⟩
  have := List.find?_some h
  simpa using this

theorem resourceTypes_nonempty : ∀ t ∈ resourceTypes, 1 ≤ t.length := by decide

/-- A successful match decomposes the input as `raw_content ++ rest`, and
strictly consumes input. -/
theorem matchResourceAt_decomp (s : List Char) (r : ResourceRecord)
    (rest : List Char) (h : matchResourceAt s = some (r, rest)) :
    s = r.raw_content ++ rest ∧ rest.length < s.length := by
  simp only [matchResourceAt] at h
  rcases ht : matchType s with _ | t
  · simp only [ht] at h
    exact Option.noConfusion h
  simp only [ht] at h
  obtain ⟨hpre, hmem⟩ := matchType_spec s t ht
  have htlen : 1 ≤ t.length := resourceTypes_nonempty t hmem
  have htle : t.length ≤ s.length := isPfx_length _ _ hpre
  rcases h1 : pRun isPySpace (s.drop t.length) with _ | ⟨⟨w1, r2⟩⟩
  · simp only [h1] at h
    exact Option.noConfusion h
  simp only [h1] at h
  obtain ⟨hr2, hw1⟩ := pRun_spec _ _ _ _ h1
  rcases h2 : pQuote r2 with _ | r3
  · simp only [h2] at h
    exact Option.noConfusion h
  simp only [h2] at h
  obtain ⟨hr3, hq1⟩ := pQuote_spec _ _ h2
  rcases h3 : pRun (fun c => !isQuote c) r3 with _ | ⟨⟨nm, r4⟩⟩
  · simp only [h3] at h
    exact Option.noConfusion h
  simp only [h3] at h
  obtain ⟨hr4, hnm⟩ := pRun_spec _ _ _ _ h3
  rcases h4 : pQuote r4 with _ | r5
  · simp only [h4] at h
    exact Option.noConfusion h
  simp only [h4] at h
  obtain ⟨hr5, hq2⟩ := pQuote_spec _ _ h4
  rcases h5 : pRun isPySpace r5 with _ | ⟨⟨w2, r6⟩⟩
  · simp only [h5] at h
    exact Option.noConfusion h
  simp only [h5] at h
  obtain ⟨hr6, hw2⟩ := pRun_spec _ _ _ _ h5
  rcases h6 : pLit ['d', 'o'] r6 with _ | r7
  · simp only [h6] at h
    exact Option.noConfusion h
  simp only [h6] at h
  obtain ⟨hr7, hdo⟩ := pLit_spec _ _ _ h6
  rcases h7 : matchBody r7 with _ | ⟨⟨body, rest0, nb⟩⟩
  · simp only [h7] at h
    exact Option.noConfusion h
  simp only [h7, Option.some.injEq, Prod.mk.injEq] at h
  obtain ⟨hrec, hrest2⟩ := h
  obtain ⟨hrest, hnb⟩ := matchBody_spec _ _ _ _ h7
  subst hrest2
  rw [hr7, hr6, hr5, hr4, hr3, hr2] at hrest
  simp only [List.drop_drop] at hrest
  have hrest9 : rest0 = List.drop
      (t.length + w1.length + 1 + nm.length + 1 + w2.length + 2 + nb) s := by
    rw [hrest]
    congr 1
  have hraw : r.raw_content = List.take
      (t.length + w1.length + 1 + nm.length + 1 + w2.length + 2 + nb) s := by
    rw [← hrec]
  constructor
  · rw [hraw, hrest9]
    exact (List.take_append_drop _ s).symm
  · rw [hrest9, List.length_drop]
    omega

/-! ### The finditer scan -/

/-- The `re.finditer` scan of `_extract_resources`: try the block pattern at
each position, continue after a match, otherwise advance one character.  The
fuel is only a termination device: every match consumes at least one character
(`matchResourceAt_decomp`), so any fuel ≥ the remaining length gives the same
result (`extractAux_fuel`). -/
def extractAux : Nat → List Char → List ResourceRecord
  | 0, _ => []
  | _ + 1, [] => []
  | fuel + 1, c :: rest =>
    match matchResourceAt (c :: rest) with
    | some (r, after) => r :: extractAux fuel after
    | none => extractAux fuel rest

/-- `ChefParser._extract_resources`. -/
def extract_resources (content : List Char) : List ResourceRecord :=
  extractAux content.length content

theorem extractAux_nil (f : Nat) : extractAux f [] = [] := by
  cases f <;> rfl

theorem extractAux_succ_some (f : Nat) (s : List Char) (r : ResourceRecord)
    (after : List Char) (h : matchResourceAt s = some (r, after)) :
    extractAux (f + 1) s = r :: extractAux f after := by
  cases s with
  | nil => rw [show matchResourceAt [] = none from rfl] at h; cases h
  | cons c rest => simp only [extractAux, h]

theorem extractAux_succ_none (f : Nat) (c : Char) (rest : List Char)
    (h : matchResourceAt (c :: rest) = none) :
    extractAux (f + 1) (c :: rest) = extractAux f rest := by
  simp only [extractAux, h]

theorem extractAux_fuel : ∀ (n : Nat) (s : List Char) (f g : Nat),
    s.length ≤ n → s.length ≤ f → s.length ≤ g →
    extractAux f s = extractAux g s := by
  intro n
  induction n with
  | zero =>
    intro s f g h1 _ _
    have hs : s = [] := List.length_eq_zero.mp (Nat.le_zero.mp h1)
    subst hs
    rw [extractAux_nil, extractAux_nil]
  | succ n ih =>
    intro s f g h1 h2 h3
    cases s with
    | nil => rw [extractAux_nil, extractAux_nil]
    | cons c rest =>
      simp only [List.length_cons] at h1 h2 h3
      obtain ⟨f', rfl⟩ : ∃ f', f = f' + 1 := ⟨f - 1, by omega⟩
      obtain ⟨g', rfl⟩ : ∃ g', g = g' + 1 := ⟨g - 1, by omega⟩
      cases hm : matchResourceAt (c :: rest) with
      | none =>
        rw [extractAux_succ_none _ _ _ hm, extractAux_succ_none _ _ _ hm]
        exact ih rest f' g' (by omega) (by omega) (by omega)
      | some pr =>
        obtain ⟨r, after⟩ := pr
        have hlt := (matchResourceAt_decomp _ _ _ hm).2
        simp only [List.length_cons] at hlt
        rw [extractAux_succ_some _ _ _ _ hm, extractAux_succ_some _ _ _ _ hm,
          ih after f' g' (by omega) (by omega) (by omega)]

/-- "Resource order matches declaration order": the records' raw source spans
occur sequentially (in order, without overlap) in the scanned text. -/
def OrderedIn : List ResourceRecord → List Char → Prop
  | [], _ => True
  | r :: rs, l => ∃ pre suf, l = pre ++ r.raw_content ++ suf ∧ OrderedIn rs suf

theorem orderedIn_cons (rs : List ResourceRecord) (l : List Char) (c : Char)
    (h : OrderedIn rs l) : OrderedIn rs (c :: l) := by
  cases rs with
  | nil => trivial
  | cons r rs' =>
    obtain ⟨pre, suf, h1, h2⟩ := h
    exact ⟨c :: pre, suf, by rw [h1]; rfl, h2⟩

theorem extractAux_ordered : ∀ (n : Nat) (s : List Char) (f : Nat),
    s.length ≤ n → s.length ≤ f → OrderedIn (extractAux f s) s := by
  intro n
  induction n with
  | zero =>
    intro s f h1 _
    have hs : s = [] := List.length_eq_zero.mp (Nat.le_zero.mp h1)
    subst hs
    rw [extractAux_nil]
    trivial
  | succ n ih =>
    intro s f h1 h2
    cases s with
    | nil => rw [extractAux_nil]; trivial
    | cons c rest =>
      simp only [List.length_cons] at h1 h2
      obtain ⟨f', rfl⟩ : ∃ f', f = f' + 1 := ⟨f - 1, by omega⟩
      cases hm : matchResourceAt (c :: rest) with
      | none =>
        rw [extractAux_succ_none _ _ _ hm]
        exact orderedIn_cons _ _ _ (ih rest f' (by omega) (by omega))
      | some pr =>
        obtain ⟨r, after⟩ := pr
        obtain ⟨hdec, hlt⟩ := matchResourceAt_decomp _ _ _ hm
        simp only [List.length_cons] at hlt
        rw [extractAux_succ_some _ _ _ _ hm]
        exact ⟨[], after, by simpa using hdec,
          ih after f' (by omega) (by omega)⟩

theorem extract_resources_ordered (l : List Char) :
    OrderedIn (extract_resources l) l :=
  extractAux_ordered l.length l l.length le_rfl le_rfl

/-! ### The end-to-end scenario blocks -/

def pkgBlock : List Char := "package 'nginx' do action :install end".toList

def svcBlock : List Char := "service 'nginx' do action [:enable, :start] end".toList

def pkgRecord : ResourceRecord :=
  { type := "package".toList, name := "nginx".toList,
    properties := [("action".toList, ":install".toList)],
    raw_content := pkgBlock }

def svcRecord : ResourceRecord :=
  { type := "service".toList, name := "nginx".toList,
    properties := [("action".toList, "[:enable, :start]".toList)],
    raw_content := svcBlock }

set_option maxRecDepth 20000 in
theorem matchResourceAt_pkg (tail : List Char) :
    matchResourceAt (pkgBlock ++ tail) = some (pkgRecord, tail) := by rfl

set_option maxRecDepth 20000 in
theorem matchResourceAt_svc (tail : List Char) :
    matchResourceAt (svcBlock ++ tail) = some (svcRecord, tail) := by rfl

/-- No resource-type keyword starts with a whitespace character, so the scan
always fails at a whitespace position. -/
theorem matchResourceAt_ws (c : Char) (s : List Char) (hc : isPySpace c = true) :
    matchResourceAt (c :: s) = none := by
  have hcases : c = ' ' ∨ c = '\t' ∨ c = '\n' ∨ c = '\r' ∨ c = '\x0b' ∨ c = '\x0c' := by
    simp only [isPySpace, Bool.or_eq_true, decide_eq_true_eq] at hc
    tauto
  rcases hcases with h | h | h | h | h | h <;> subst h <;> rfl

/-- Scanning a whitespace-only prefix leaves the extraction of the remainder
unchanged. -/
theorem extractAux_ws_skip (sep : List Char)
    (hsep : ∀ c ∈ sep, isPySpace c = true) (l : List Char)
    (res : List ResourceRecord)
    (hl : ∀ f, l.length ≤ f → extractAux f l = res) :
    ∀ f, (sep ++ l).length ≤ f → extractAux f (sep ++ l) = res := by
  induction sep with
  | nil => simpa using hl
  | cons c sep' ih =>
    intro f hf
    simp only [List.cons_append, List.length_cons, List.length_append] at hf
    obtain ⟨f', rfl⟩ : ∃ f', f = f' + 1 := ⟨f - 1, by omega⟩
    rw [List.cons_append,
      extractAux_succ_none _ _ _ (matchResourceAt_ws c _ (hsep c (by simp)))]
    exact ih (fun d hd => hsep d (by simp [hd])) f' (by simp [List.length_append]; omega)

theorem extractAux_svcBlock :
    ∀ f, svcBlock.length ≤ f → extractAux f svcBlock = [svcRecord] := by
  intro f hf
  have h47 : svcBlock.length = 47 := rfl
  obtain ⟨f', rfl⟩ : ∃ f', f = f' + 1 := ⟨f - 1, by omega⟩
  rw [extractAux_succ_some _ _ _ _ (by simpa using matchResourceAt_svc []),
    extractAux_nil]

/-- C1: for every whitespace separation of the two blocks
`package 'nginx' do action :install end` and
`service 'nginx' do action [:enable, :start] end`, extraction returns exactly
the two records, `package` first and `service` second, both named `nginx`;
and in general the returned records' raw spans occur in the scanned text in
declaration order. -/
theorem extract_two_blocks_ordered :
    (∀ sep : List Char, (∀ c ∈ sep, isPySpace c = true) →
      extract_resources (pkgBlock ++ sep ++ svcBlock) = [pkgRecord, svcRecord]) ∧
    (∀ l : List Char, OrderedIn (extract_resources l) l) := by
  constructor
  · intro sep hsep
    have hkey := extractAux_ws_skip sep hsep svcBlock [svcRecord] extractAux_svcBlock
    have hpkg : pkgBlock.length = 38 := rfl
    unfold extract_resources
    rw [List.append_assoc]
    have hlen : (pkgBlock ++ (sep ++ svcBlock)).length =
        (sep ++ svcBlock).length + 38 := by
      rw [List.length_append, hpkg]; omega
    obtain ⟨f', hf'⟩ : ∃ f', (pkgBlock ++ (sep ++ svcBlock)).length = f' + 1 :=
      ⟨(pkgBlock ++ (sep ++ svcBlock)).length - 1, by omega⟩
    rw [hf', extractAux_succ_some _ _ _ _ (matchResourceAt_pkg (sep ++ svcBlock)),
      hkey f' (by omega)]
  · exact extract_resources_ordered

/-- Witness for C1: the two blocks separated by a newline. -/
theorem extract_two_blocks_ordered_witness :
    (∀ c ∈ ['\n'], isPySpace c = true) ∧
    extract_resources (pkgBlock ++ ['\n'] ++ svcBlock) = [pkgRecord, svcRecord] ∧
    OrderedIn (extract_resources pkgBlock) pkgBlock :=
  ⟨by decide, extract_two_blocks_ordered.1 ['\n'] (by decide),
   extract_two_blocks_ordered.2 pkgBlock⟩

/-! ### Unknown resource types (C8) -/

/-- A well-formed `do ... end` block whose type is outside the vocabulary. -/
def unknownBlock : List Char := "launchd 'myagent' do mode '0644' end".toList

/-- C8 counterexample: a recipe consisting of one resource block of unknown
type extracts to the empty list — the same output as the empty recipe.  The
extractor's entire output is this record list; it carries no skipped count or
any other diagnostic, so the block is dropped with no signal. -/
theorem extract_unknown_type_counterexample :
    extract_resources unknownBlock = [] ∧ extract_resources [] = [] :=
  ⟨by decide, rfl⟩

/-- C8 amended: a recipe text made of whitespace and an unknown-type resource
block extracts to the empty record list, and `_extract_resources` returns
nothing else — the non-extracted resource is silently dropped, with no
"skipped" count anywhere in the extractor's output. -/
theorem extract_unknown_type_dropped (sep : List Char)
    (hsep : ∀ c ∈ sep, isPySpace c = true) :
    extract_resources (sep ++ unknownBlock) = [] := by
  have hbase : ∀ f, unknownBlock.length ≤ f → extractAux f unknownBlock = [] := by
    intro f hf
    rw [extractAux_fuel f unknownBlock f unknownBlock.length hf hf le_rfl]
    decide
  exact extractAux_ws_skip sep hsep unknownBlock [] hbase _ le_rfl

/-- Witness for C8's amended statement. -/
theorem extract_unknown_type_dropped_witness :
    (∀ c ∈ [' '], isPySpace c = true) ∧
    extract_resources ([' '] ++ unknownBlock) = [] :=
  ⟨by decide, extract_unknown_type_dropped [' '] (by decide)⟩

/-! ### Last-occurrence-wins properties (C9) -/

/-- The value carried by the last binding of `k` in a list of pairs. -/
def lastBinding {κ α : Type} [DecidableEq κ] : List (κ × α) → κ → Option α
  | [], _ => none
  | p :: rest, k =>
    match lastBinding rest k with
    | some v => some v
    | none => if p.1 = k then some p.2 else none

theorem lookupA_foldl_updA {κ α β : Type} [DecidableEq κ] (f : α → β) :
    ∀ (ms : List (κ × α)) (acc : List (κ × β)) (k : κ),
    lookupA (ms.foldl (fun a p => updA a p.1 (f p.2)) acc) k =
      match lastBinding ms k with
      | some v => some (f v)
      | none => lookupA acc k := by
  intro ms
  induction ms with
  | nil => intro acc k; rfl
  | cons p rest ih =>
    intro acc k
    simp only [List.foldl_cons, lastBinding]
    rw [ih]
    cases hlb : lastBinding rest k with
    | some v => rfl
    | none =>
      simp only [lookupA_updA]
      by_cases hk : p.1 = k
      · simp [hk]
      · simp [hk]

theorem updA_cons_eq {κ α : Type} [DecidableEq κ] (k0 : κ) (v0 : α)
    (rest : List (κ × α)) (v : α) :
    updA ((k0, v0) :: rest) k0 v = (k0, v) :: rest := by
  simp [updA]

theorem updA_cons_ne {κ α : Type} [DecidableEq κ] (k0 : κ) (v0 : α)
    (rest : List (κ × α)) (k : κ) (v : α) (h : k0 ≠ k) :
    updA ((k0, v0) :: rest) k v = (k0, v0) :: updA rest k v := by
  simp [updA, h]

theorem mem_keys_updA {κ α : Type} [DecidableEq κ] :
    ∀ (m : List (κ × α)) (k j : κ) (v : α),
    j ∈ (updA m k v).map Prod.fst → j = k ∨ j ∈ m.map Prod.fst := by
  intro m
  induction m with
  | nil =>
    intro k j v h
    simp only [updA, List.map_cons, List.map_nil, List.mem_cons,
      List.not_mem_nil, or_false] at h
    exact Or.inl h
  | cons p rest ih =>
    intro k j v h
    obtain ⟨k0, v0⟩ := p
    by_cases h0 : k0 = k
    · subst h0
      rw [updA_cons_eq] at h
      simp only [List.map_cons, List.mem_cons] at h ⊢
      tauto
    · rw [updA_cons_ne _ _ _ _ _ h0] at h
      simp only [List.map_cons, List.mem_cons] at h ⊢
      rcases h with h1 | h1
      · exact Or.inr (Or.inl h1)
      · rcases ih k j v h1 with h2 | h2
        · exact Or.inl h2
        · exact Or.inr (Or.inr h2)

theorem keys_nodup_updA {κ α : Type} [DecidableEq κ] :
    ∀ (m : List (κ × α)) (k : κ) (v : α),
    (m.map Prod.fst).Nodup → ((updA m k v).map Prod.fst).Nodup := by
  intro m
  induction m with
  | nil => intro k v _; simp [updA]
  | cons p rest ih =>
    intro k v h
    obtain ⟨k0, v0⟩ := p
    simp only [List.map_cons, List.nodup_cons] at h
    by_cases h0 : k0 = k
    · subst h0
      rw [updA_cons_eq]
      simp only [List.map_cons, List.nodup_cons]
      exact h
    · rw [updA_cons_ne _ _ _ _ _ h0]
      simp only [List.map_cons, List.nodup_cons]
      refine ⟨?_, ih k v h.2⟩
      intro hmem
      rcases mem_keys_updA rest k k0 v hmem with h1 | h1
      · exact h0 h1
      · exact h.1 h1

theorem keys_nodup_foldl_updA {κ α β : Type} [DecidableEq κ] (f : α → β) :
    ∀ (ms : List (κ × α)) (acc : List (κ × β)),
    (acc.map Prod.fst).Nodup →
    ((ms.foldl (fun a p => updA a p.1 (f p.2)) acc).map Prod.fst).Nodup := by
  intro ms
  induction ms with
  | nil => intro acc h; exact h
  | cons p rest ih =>
    intro acc h
    simp only [List.foldl_cons]
    exact ih _ (keys_nodup_updA _ _ _ h)

/-- C9: in the property map of an extracted record, every property name
occurs exactly once (the key list has no duplicates), and the value bound to a
name is the stripped value of the last property match with that name in the
body text — last occurrence wins, by dict-assignment semantics. -/
theorem extract_properties_last_wins (body name : List Char) :
    ((extractProperties body).map Prod.fst).Nodup ∧
    lookupA (extractProperties body) name =
      (lastBinding (propMatches body) name).map pyStrip := by
  constructor
  · exact keys_nodup_foldl_updA pyStrip (propMatches body) [] (by simp)
  · rw [extractProperties, lookupA_foldl_updA]
    cases lastBinding (propMatches body) name <;> rfl

/-! ## Cookbook file reading (`_parse_recipes` vs `_find_templates`) (C7) -/

/-- One file of a recipes directory: its basename and the outcome of
`open(file, 'r').read()` — either the decoded text, or the raised
`OSError`/`UnicodeDecodeError` abstracted as its message. -/
structure RecipeFile where
  name : String
  read : Except String (List Char)

/-- A parsed recipe dict, as appended by `_parse_recipes`. -/
structure RecipeRec where
  name : String
  content : List Char
  resources : List ResourceRecord
deriving DecidableEq

/-- `ChefParser._parse_recipes`: the loop body is a bare
`open(recipe_file, 'r').read()` with no exception handling, so the first read
failure propagates out of the whole function — no record list is returned. -/
def parse_recipes : List RecipeFile → Except String (List RecipeRec)
  | [] => Except.ok []
  | f :: rest =>
    match f.read with
    | Except.error e => Except.error e
    | Except.ok content =>
      match parse_recipes rest with
      | Except.error e => Except.error e
      | Except.ok rs =>
        Except.ok ({ name := f.name, content := content,
                     resources := extract_resources content } :: rs)

/-- Outcome of the guarded `f.read()` inside `_find_templates` (chef_parser.py
235-238): the decoded text, a `UnicodeDecodeError` (the only exception the
`except` clause catches), or any other exception, which is uncaught and
propagates. -/
inductive ReadResult where
  | ok (content : List Char)
  | unicodeDecodeError
  | otherError (msg : String)
deriving DecidableEq

/-- One file of a templates directory: name, relative path, and the outcome of
`open(template_file, 'r', errors='ignore')` — the `open` call (chef_parser.py
234) sits OUTSIDE the `try`, so a failed open raises an uncaught `OSError`
(the `Except.error` case); a successful open hands the guarded read its
outcome. -/
structure TemplateSrc where
  name : String
  path : String
  openF : Except String ReadResult

structure TemplateRec where
  name : String
  path : String
  content : Option (List Char)
deriving DecidableEq

/-- The loop body of `_find_templates` up to `content`: an open failure
propagates; on a successful open the guarded read yields the text, or `None`
for the caught `UnicodeDecodeError`, while any other read exception
propagates. -/
def templateStep (f : TemplateSrc) : Except String (Option (List Char)) :=
  match f.openF with
  | Except.error e => Except.error e
  | Except.ok (ReadResult.ok c) => Except.ok (some c)
  | Except.ok ReadResult.unicodeDecodeError => Except.ok none
  | Except.ok (ReadResult.otherError e) => Except.error e

/-- A template file whose processing raises nothing: its record's content. -/
def TemplateSrc.contentOf (f : TemplateSrc) : Option (List Char) :=
  match templateStep f with
  | Except.ok c => c
  | Except.error _ => none

def TemplateSrc.nonRaising (f : TemplateSrc) : Bool :=
  (templateStep f).isOk

/-- `ChefParser._find_templates`: each file is opened (unguarded) and read
(guarded against `UnicodeDecodeError` only); the first uncaught exception
aborts the scan, otherwise every file yields a record whose content is the
text or `None`. -/
def find_templates : List TemplateSrc → Except String (List TemplateRec)
  | [] => Except.ok []
  | f :: rest =>
    match templateStep f with
    | Except.error e => Except.error e
    | Except.ok content =>
      match find_templates rest with
      | Except.error e => Except.error e
      | Except.ok ts =>
        Except.ok ({ name := f.name, path := f.path, content := content } :: ts)

/-- C7 counterexample: a recipes directory with a readable recipe, an
undecodable one, and a readable sibling.  `_parse_recipes` raises (modelled as
`Except.error`): the result is not a nil-content record plus the parsed
siblings — no records are returned at all. -/
theorem parse_recipes_error_counterexample :
    parse_recipes
      [⟨"default", Except.ok pkgBlock⟩,
       ⟨"broken", Except.error "UnicodeDecodeError"⟩,
       ⟨"sibling", Except.ok svcBlock⟩] =
      Except.error "UnicodeDecodeError" := rfl

theorem parse_recipes_error_first :
    ∀ (pre : List RecipeFile) (bad : RecipeFile) (post : List RecipeFile)
      (e : String),
    (∀ g ∈ pre, g.read.isOk = true) → bad.read = Except.error e →
    parse_recipes (pre ++ bad :: post) = Except.error e := by
  intro pre
  induction pre with
  | nil =>
    intro bad post e _ hbad
    simp only [List.nil_append, parse_recipes, hbad]
  | cons g pre' ih =>
    intro bad post e hpre hbad
    have hg : g.read.isOk = true := hpre g (by simp)
    obtain ⟨c, hc⟩ : ∃ c, g.read = Except.ok c := by
      cases hgr : g.read with
      | error e2 => rw [hgr] at hg; simp [Except.isOk, Except.toBool] at hg
      | ok c => exact ⟨c, rfl⟩
    simp only [List.cons_append, parse_recipes, hc, List.append_eq,
      ih bad post e (fun q hq => hpre q (by simp [hq])) hbad]

theorem find_templates_abort :
    ∀ (tpre : List TemplateSrc) (tbad : TemplateSrc) (tpost : List TemplateSrc)
      (e : String), (∀ g ∈ tpre, g.nonRaising = true) →
      tbad.openF = Except.error e →
      find_templates (tpre ++ tbad :: tpost) = Except.error e := by
  intro tpre
  induction tpre with
  | nil =>
    intro tbad tpost e _ hbad
    have hstep : templateStep tbad = Except.error e := by
      unfold templateStep
      rw [hbad]
    show (match templateStep tbad with
      | Except.error e2 => Except.error e2
      | Except.ok content =>
        match find_templates tpost with
        | Except.error e2 => Except.error e2
        | Except.ok ts =>
          Except.ok ({ name := tbad.name, path := tbad.path,
                       content := content } :: ts)) = Except.error e
    rw [hstep]
  | cons g pre2 ih =>
    intro tbad tpost e hpre hbad
    have hg : (templateStep g).isOk = true := hpre g (by simp)
    obtain ⟨c, hc⟩ : ∃ c, templateStep g = Except.ok c := by
      cases hs : templateStep g with
      | error e2 => rw [hs] at hg; simp [Except.isOk, Except.toBool] at hg
      | ok c => exact ⟨c, rfl⟩
    show (match templateStep g with
      | Except.error e2 => Except.error e2
      | Except.ok content =>
        match find_templates (pre2 ++ tbad :: tpost) with
        | Except.error e2 => Except.error e2
        | Except.ok ts =>
          Except.ok ({ name := g.name, path := g.path,
                       content := content } :: ts)) = Except.error e
    rw [hc, ih tbad tpost e (fun q hq => hpre q (by simp [hq])) hbad]

theorem find_templates_ok :
    ∀ ts : List TemplateSrc, (∀ g ∈ ts, g.nonRaising = true) →
    find_templates ts = Except.ok (ts.map fun f =>
      ({ name := f.name, path := f.path, content := f.contentOf } :
        TemplateRec)) := by
  intro ts
  induction ts with
  | nil => intro _; rfl
  | cons f rest ih =>
    intro h
    have hf : (templateStep f).isOk = true := h f (by simp)
    obtain ⟨c, hc⟩ : ∃ c, templateStep f = Except.ok c := by
      cases hs : templateStep f with
      | error e2 => rw [hs] at hf; simp [Except.isOk, Except.toBool] at hf
      | ok c => exact ⟨c, rfl⟩
    have hco : f.contentOf = c := by
      unfold TemplateSrc.contentOf
      rw [hc]
    show (match templateStep f with
      | Except.error e2 => Except.error e2
      | Except.ok content =>
        match find_templates rest with
        | Except.error e2 => Except.error e2
        | Except.ok ts2 =>
          Except.ok ({ name := f.name, path := f.path,
                       content := content } :: ts2)) =
      Except.ok ((f :: rest).map fun g =>
        ({ name := g.name, path := g.path, content := g.contentOf } :
          TemplateRec))
    rw [hc, ih (fun g hg => h g (by simp [hg]))]
    simp [List.map_cons, hco]

/-- C7 amended: an unreadable or non-UTF8 recipe file makes `_parse_recipes`
raise the first read error, so the sibling recipes of the same cookbook are
not returned.  `_find_templates` likewise aborts when a template file cannot
be opened — its `open` call sits outside the `try` — and degrades only on the
guarded read: a `UnicodeDecodeError` there yields a record with nil content,
and when no file raises an uncaught exception every file yields its record. -/
theorem parse_recipes_abort_templates_degrade (pre : List RecipeFile)
    (bad : RecipeFile) (post : List RecipeFile) (e : String)
    (hpre : ∀ g ∈ pre, g.read.isOk = true) (hbad : bad.read = Except.error e) :
    parse_recipes (pre ++ bad :: post) = Except.error e ∧
    (∀ (tpre : List TemplateSrc) (tbad : TemplateSrc)
       (tpost : List TemplateSrc) (e2 : String),
       (∀ g ∈ tpre, g.nonRaising = true) → tbad.openF = Except.error e2 →
       find_templates (tpre ++ tbad :: tpost) = Except.error e2) ∧
    (∀ ts : List TemplateSrc, (∀ g ∈ ts, g.nonRaising = true) →
       find_templates ts = Except.ok (ts.map fun f =>
         ({ name := f.name, path := f.path, content := f.contentOf } :
           TemplateRec))) :=
  ⟨parse_recipes_error_first pre bad post e hpre hbad,
   find_templates_abort, find_templates_ok⟩

/-- Witness for C7's amended statement. -/
theorem parse_recipes_abort_templates_degrade_witness :
    (∀ g ∈ [(⟨"default", Except.ok pkgBlock⟩ : RecipeFile)],
      g.read.isOk = true) ∧
    (⟨"broken", Except.error "boom"⟩ : RecipeFile).read =
      Except.error "boom" ∧
    parse_recipes
      [⟨"default", Except.ok pkgBlock⟩, ⟨"broken", Except.error "boom"⟩,
       ⟨"sibling", Except.ok svcBlock⟩] = Except.error "boom" ∧
    find_templates
      [⟨"a.erb", "default/a.erb", Except.ok (ReadResult.ok "a".toList)⟩,
       ⟨"locked.erb", "default/locked.erb", Except.error "PermissionError"⟩,
       ⟨"b.erb", "default/b.erb", Except.ok (ReadResult.ok "b".toList)⟩] =
      Except.error "PermissionError" ∧
    find_templates
      [⟨"a.erb", "default/a.erb", Except.ok (ReadResult.ok "a".toList)⟩,
       ⟨"bin.erb", "default/bin.erb",
        Except.ok ReadResult.unicodeDecodeError⟩] =
      Except.ok
        [⟨"a.erb", "default/a.erb", some ("a".toList)⟩,
         ⟨"bin.erb", "default/bin.erb", none⟩] := by
  refine ⟨by decide, rfl, ?_, ?_, ?_⟩
  · exact (parse_recipes_abort_templates_degrade
      [⟨"default", Except.ok pkgBlock⟩] ⟨"broken", Except.error "boom"⟩
      [⟨"sibling", Except.ok svcBlock⟩] "boom" (by decide) rfl).1
  · exact (parse_recipes_abort_templates_degrade
      [⟨"default", Except.ok pkgBlock⟩] ⟨"broken", Except.error "boom"⟩
      [⟨"sibling", Except.ok svcBlock⟩] "boom" (by decide) rfl).2.1
      [⟨"a.erb", "default/a.erb", Except.ok (ReadResult.ok "a".toList)⟩]
      ⟨"locked.erb", "default/locked.erb", Except.error "PermissionError"⟩
      [⟨"b.erb", "default/b.erb", Except.ok (ReadResult.ok "b".toList)⟩]
      "PermissionError" (by decide) rfl
  · have h5 := (parse_recipes_abort_templates_degrade
      [⟨"default", Except.ok pkgBlock⟩] ⟨"broken", Except.error "boom"⟩
      [⟨"sibling", Except.ok svcBlock⟩] "boom" (by decide) rfl).2.2
      [⟨"a.erb", "default/a.erb", Except.ok (ReadResult.ok "a".toList)⟩,
       ⟨"bin.erb", "default/bin.erb",
        Except.ok ReadResult.unicodeDecodeError⟩]
      (by decide)
    rw [h5]
    rfl

/-! ## Template transpiler (`LLMConverter._convert_erb_to_jinja`)

Each regex substitution / string replacement of the Python function is
modelled as a one-pass, left-to-right, non-overlapping scan with a matcher
that reproduces the backtracking of the corresponding pattern: greedy `\s*` /
`\s+` runs are tried longest first, lazy `(.+?)` / `(.*?)` shortest first, and
without `re.DOTALL` a lazy dot never crosses a newline. -/

/-- Maximal whitespace run: its length and the remainder. -/
def dropWs (s : List Char) : Nat × List Char :=
  let w := (s.takeWhile isPySpace).length
  (w, s.drop w)

/-- One `re.sub`/`str.replace` pass: at each position try the matcher; on a
match emit its replacement and skip the consumed characters (every matcher
below consumes at least one), else copy one character. -/
def scanSub (try1 : List Char → Option (List Char × Nat)) :
    Nat → List Char → List Char
  | _ + 1, [] => []
  | skip + 1, _ :: s => scanSub try1 skip s
  | 0, [] => []
  | 0, c :: s =>
    match try1 (c :: s) with
    | some (rep, n) => rep ++ scanSub try1 (n - 1) s
    | none => c :: scanSub try1 0 s

def subAll (try1 : List Char → Option (List Char × Nat)) (s : List Char) :
    List Char :=
  scanSub try1 0 s

/-- One `re.findall`/`str.count` counting pass (same non-overlapping scan). -/
def scanCount (try1 : List Char → Option Nat) : Nat → List Char → Nat
  | _ + 1, [] => 0
  | skip + 1, _ :: s => scanCount try1 skip s
  | 0, [] => 0
  | 0, c :: s =>
    match try1 (c :: s) with
    | some n => 1 + scanCount try1 (n - 1) s
    | none => scanCount try1 0 s

/-- Matcher of a plain `str.replace(pat, rep)`. -/
def tryLit (pat rep : List Char) (s : List Char) : Option (List Char × Nat) :=
  if isPfx pat s then some (rep, pat.length) else none

/-- Matcher counting occurrences of a literal (`str.count`). -/
def tryOcc (pat : List Char) (s : List Char) : Option Nat :=
  if isPfx pat s then some pat.length else none

/-- Python `s.count(pat)`. -/
def countSub (pat s : List Char) : Nat := scanCount (tryOcc pat) 0 s

/-- Python `s.replace(old, new, n)`: replace the first `n` non-overlapping
occurrences.  The middle argument is the pending skip of an emitted match. -/
def replaceNAux (old new : List Char) : Nat → Nat → List Char → List Char
  | _, _ + 1, [] => []
  | n, skip + 1, _ :: s => replaceNAux old new n skip s
  | 0, 0, s => s
  | _ + 1, 0, [] => []
  | n + 1, 0, c :: s =>
    if isPfx old (c :: s) then new ++ replaceNAux old new n (old.length - 1) s
    else c :: replaceNAux old new (n + 1) 0 s

def replaceN (old new : List Char) (n : Nat) (s : List Char) : List Char :=
  replaceNAux old new n 0 s

/-- `\s*%>` (deterministic: `%` is not whitespace, so only the maximal run can
precede the literal).  Returns the characters consumed. -/
def closeExpr (t : List Char) : Option Nat :=
  let (j, r) := dropWs t
  if isPfx ['%', '>'] r then some (j + 2) else none

/-- Lazy `(.+?)` without DOTALL, closed by `close`: extend the body one
non-newline character at a time and stop at the first position where the close
succeeds.  Returns (body, close payload, characters consumed incl. close). -/
def lazyBody {g : Type} (close : List Char → Option (g × Nat)) :
    List Char → Option (List Char × g × Nat)
  | [] => none
  | c :: rest =>
    if c = '\n' then none
    else
      match close rest with
      | some (p, j) => some ([c], p, 1 + j)
      | none =>
        match lazyBody close rest with
        | some (b, p, n) => some (c :: b, p, n + 1)
        | none => none

/-- The greedy/lazy interplay of `\s*(.+?)…` and `\s+(.+?)…`: the leading run
is tried longest first (`k` counts down, `tries` bounds the candidates), each
freed whitespace character being donated to the body. -/
def wsBodyCloseAux {g : Type} (close : List Char → Option (g × Nat))
    (s : List Char) : Nat → Nat → Option (List Char × g × Nat)
  | _, 0 => none
  | k, tries + 1 =>
    match lazyBody close (s.drop k) with
    | some (b, p, m) => some (b, p, k + m)
    | none => wsBodyCloseAux close s (k - 1) tries

/-- `\s*(.+?)close`. -/
def wsStarBodyClose {g : Type} (close : List Char → Option (g × Nat))
    (s : List Char) : Option (List Char × g × Nat) :=
  let w := (s.takeWhile isPySpace).length
  wsBodyCloseAux close s w (w + 1)

/-- `\s+(.+?)close`. -/
def wsPlusBodyClose {g : Type} (close : List Char → Option (g × Nat))
    (s : List Char) : Option (List Char × g × Nat) :=
  let w := (s.takeWhile isPySpace).length
  if w = 0 then none else wsBodyCloseAux close s w w

/-- `closeExpr` with a trivial payload. -/
def closeExprU (t : List Char) : Option (Unit × Nat) :=
  (closeExpr t).map (fun j => ((), j))

/-- `<%=\s*(.+?)\s*%>` → `{{ \1 }}`. -/
def tryOutputTag (s : List Char) : Option (List Char × Nat) :=
  if isPfx ['<', '%', '='] s then
    match wsStarBodyClose closeExprU (s.drop 3) with
    | some (b, _, m) =>
        some ("\x7b\x7b ".toList ++ b ++ " \x7d\x7d".toList, 3 + m)
    | none => none
  else none

/-- `<%\s*if\s+(.+?)\s*%>` → `{% if \1 %}`. -/
def tryIfTag (s : List Char) : Option (List Char × Nat) :=
  if isPfx ['<', '%'] s then
    let (w, r) := dropWs (s.drop 2)
    if isPfx ['i', 'f'] r then
      match wsPlusBodyClose closeExprU (r.drop 2) with
      | some (b, _, m) =>
          some ("\x7b% if ".toList ++ b ++ " %\x7d".toList, 2 + w + 2 + m)
      | none => none
    else none
  else none

/-- `<%\s*elsif\s+(.+?)\s*%>` → `{% elif \1 %}`. -/
def tryElsifTag (s : List Char) : Option (List Char × Nat) :=
  if isPfx ['<', '%'] s then
    let (w, r) := dropWs (s.drop 2)
    if isPfx ['e', 'l', 's', 'i', 'f'] r then
      match wsPlusBodyClose closeExprU (r.drop 5) with
      | some (b, _, m) =>
          some ("\x7b% elif ".toList ++ b ++ " %\x7d".toList, 2 + w + 5 + m)
      | none => none
    else none
  else none

/-- `<%\s*else\s*%>` → `{% else %}` (fully deterministic). -/
def tryElseTag (s : List Char) : Option (List Char × Nat) :=
  if isPfx ['<', '%'] s then
    let (w1, r1) := dropWs (s.drop 2)
    if isPfx ['e', 'l', 's', 'e'] r1 then
      let (w2, r2) := dropWs (r1.drop 4)
      if isPfx ['%', '>'] r2 then
        some ("\x7b% else %\x7d".toList, 2 + w1 + 4 + w2 + 2)
      else none
    else none
  else none

/-- `\s*\|\s*%>` (the tail of the each-do pattern). -/
def closePipe (t : List Char) : Option (Unit × Nat) :=
  let (j1, r1) := dropWs t
  match r1 with
  | '|' :: r2 =>
    let (j2, r3) := dropWs r2
    if isPfx ['%', '>'] r3 then some ((), j1 + 1 + j2 + 2) else none
  | _ => none

/-- `\.each\s+do\s*\|\s*(.+?)\s*\|\s*%>` — the close of the collection body of
the loop pattern; the payload is the item group `\2`. -/
def closeEach (t : List Char) : Option (List Char × Nat) :=
  if isPfx ".each".toList t then
    let (w1, r2) := dropWs (t.drop 5)
    if w1 = 0 then none
    else if isPfx ['d', 'o'] r2 then
      let (w2, r3) := dropWs (r2.drop 2)
      match r3 with
      | '|' :: r4 =>
        match wsStarBodyClose closePipe r4 with
        | some (b2, _, m) => some (b2, 5 + w1 + 2 + w2 + 1 + m)
        | none => none
      | _ => none
    else none
  else none

/-- `<%\s*(.+?)\.each\s+do\s*\|\s*(.+?)\s*\|\s*%>` → `{% for \2 in \1 %}`. -/
def tryEachTag (s : List Char) : Option (List Char × Nat) :=
  if isPfx ['<', '%'] s then
    match wsStarBodyClose closeEach (s.drop 2) with
    | some (b1, b2, m) =>
        some ("\x7b% for ".toList ++ b2 ++ " in ".toList ++ b1 ++ " %\x7d".toList,
              2 + m)
    | none => none
  else none

/-- `<%\s*end\s*%>` → `{% endfor %}` (deterministic). -/
def tryEndTag (s : List Char) : Option (List Char × Nat) :=
  if isPfx ['<', '%'] s then
    let (w1, r1) := dropWs (s.drop 2)
    if isPfx ['e', 'n', 'd'] r1 then
      let (w2, r2) := dropWs (r1.drop 3)
      if isPfx ['%', '>'] r2 then
        some ("\x7b% endfor %\x7d".toList, 2 + w1 + 3 + w2 + 2)
      else none
    else none
  else none

/-- `<%\s*(.+?)\s*%>` → `{% \1 %}` (step 3's catch-all). -/
def tryGenericTag (s : List Char) : Option (List Char × Nat) :=
  if isPfx ['<', '%'] s then
    match wsStarBodyClose closeExprU (s.drop 2) with
    | some (b, _, m) => some ("\x7b% ".toList ++ b ++ " %\x7d".toList, 2 + m)
    | none => none
  else none

/-- `{%\s*for\s+` (the loop-open count of the reconciliation step). -/
def tryForOpen (s : List Char) : Option Nat :=
  if isPfx ['\x7b', '%'] s then
    let (w1, r1) := dropWs (s.drop 2)
    if isPfx ['f', 'o', 'r'] r1 then
      let (w2, _) := dropWs (r1.drop 3)
      if w2 = 0 then none else some (2 + w1 + 3 + w2)
    else none
  else none

/-- `len(re.findall(r'{%\s*for\s+', s))`. -/
def countForOpens (s : List Char) : Nat := scanCount tryForOpen 0 s

def endforTag : List Char := "\x7b% endfor %\x7d".toList

def endifTag : List Char := "\x7b% endif %\x7d".toList

/-- Lines 917-922 of `llm_converter.py`: if the emitted loop-closes outnumber
the loop-opens, relabel the first `endfor_count - for_count` of them as
conditional-closes via `str.replace(..., count)`. -/
def reconcileEnds (s : List Char) : List Char :=
  if countForOpens s < countSub endforTag s then
    replaceN endforTag endifTag (countSub endforTag s - countForOpens s) s
  else s

/-- `node\['a'\]...` bracket-string chains (three, two, one levels), rewritten
to underscore-joined names. -/
def tryNodeBracket3 (s : List Char) : Option (List Char × Nat) :=
  if isPfx "node['".toList s then
    let a := (s.drop 6).takeWhile (fun c => !(c = '\''))
    if a.isEmpty then none
    else
      let t2 := (s.drop 6).drop a.length
      if isPfx "']['".toList t2 then
        let b := (t2.drop 4).takeWhile (fun c => !(c = '\''))
        if b.isEmpty then none
        else
          let t4 := (t2.drop 4).drop b.length
          if isPfx "']['".toList t4 then
            let d := (t4.drop 4).takeWhile (fun c => !(c = '\''))
            if d.isEmpty then none
            else
              let t6 := (t4.drop 4).drop d.length
              if isPfx "']".toList t6 then
                some (a ++ '_' :: b ++ '_' :: d,
                      6 + a.length + 4 + b.length + 4 + d.length + 2)
              else none
          else none
      else none
  else none

def tryNodeBracket2 (s : List Char) : Option (List Char × Nat) :=
  if isPfx "node['".toList s then
    let a := (s.drop 6).takeWhile (fun c => !(c = '\''))
    if a.isEmpty then none
    else
      let t2 := (s.drop 6).drop a.length
      if isPfx "']['".toList t2 then
        let b := (t2.drop 4).takeWhile (fun c => !(c = '\''))
        if b.isEmpty then none
        else
          let t4 := (t2.drop 4).drop b.length
          if isPfx "']".toList t4 then
            some (a ++ '_' :: b, 6 + a.length + 4 + b.length + 2)
          else none
      else none
  else none

def tryNodeBracket1 (s : List Char) : Option (List Char × Nat) :=
  if isPfx "node['".toList s then
    let a := (s.drop 6).takeWhile (fun c => !(c = '\''))
    if a.isEmpty then none
    else
      let t2 := (s.drop 6).drop a.length
      if isPfx "']".toList t2 then some (a, 6 + a.length + 2) else none
  else none

/-- `node\[:a\]...` bracket-symbol chains (three, two, one levels). -/
def tryNodeSym3 (s : List Char) : Option (List Char × Nat) :=
  if isPfx "node[:".toList s then
    let a := (s.drop 6).takeWhile (fun c => !(c = ']'))
    if a.isEmpty then none
    else
      let t2 := (s.drop 6).drop a.length
      if isPfx "][:".toList t2 then
        let b := (t2.drop 3).takeWhile (fun c => !(c = ']'))
        if b.isEmpty then none
        else
          let t4 := (t2.drop 3).drop b.length
          if isPfx "][:".toList t4 then
            let d := (t4.drop 3).takeWhile (fun c => !(c = ']'))
            if d.isEmpty then none
            else
              let t6 := (t4.drop 3).drop d.length
              if isPfx [']'] t6 then
                some (a ++ '_' :: b ++ '_' :: d,
                      6 + a.length + 3 + b.length + 3 + d.length + 1)
              else none
          else none
      else none
  else none

def tryNodeSym2 (s : List Char) : Option (List Char × Nat) :=
  if isPfx "node[:".toList s then
    let a := (s.drop 6).takeWhile (fun c => !(c = ']'))
    if a.isEmpty then none
    else
      let t2 := (s.drop 6).drop a.length
      if isPfx "][:".toList t2 then
        let b := (t2.drop 3).takeWhile (fun c => !(c = ']'))
        if b.isEmpty then none
        else
          let t4 := (t2.drop 3).drop b.length
          if isPfx [']'] t4 then
            some (a ++ '_' :: b, 6 + a.length + 3 + b.length + 1)
          else none
      else none
  else none

def tryNodeSym1 (s : List Char) : Option (List Char × Nat) :=
  if isPfx "node[:".toList s then
    let a := (s.drop 6).takeWhile (fun c => !(c = ']'))
    if a.isEmpty then none
    else
      let t2 := (s.drop 6).drop a.length
      if isPfx [']'] t2 then some (a, 6 + a.length + 1) else none
  else none

/-- `node\.([a-zA-Z0-9_]+)` → `\1`. -/
def tryNodeDot (s : List Char) : Option (List Char × Nat) :=
  if isPfx "node.".toList s then
    let a := (s.drop 5).takeWhile isWordChar
    if a.isEmpty then none else some (a, 5 + a.length)
  else none

/-- The lazy `(.*?)['"]\)` of the `File.exist?` pattern: the shortest
non-newline run followed by a quote and a closing parenthesis. -/
def fileExistBody : List Char → Option (List Char × Nat)
  | [] => none
  | c :: rest =>
    if isQuote c ∧ rest.head? = some ')' then some ([], 2)
    else if c = '\n' then none
    else
      match fileExistBody rest with
      | some (p, n) => some (c :: p, n + 1)
      | none => none

/-- `File\.exist\?\(['"](.*?)['"]\)` → `'\1' is defined`. -/
def tryFileExist (s : List Char) : Option (List Char × Nat) :=
  if isPfx "File.exist?(".toList s then
    match s.drop 12 with
    | q :: rest =>
      if isQuote q then
        match fileExistBody rest with
        | some (p, n) => some ('\'' :: (p ++ "' is defined".toList), 12 + 1 + n)
        | none => none
      else none
    | [] => none
  else none

/-- `(.+?)\}`: the interpolation expression, shortest nonempty non-newline run
before a closing brace. -/
def interpG2 : List Char → Option (List Char × Nat)
  | [] => none
  | c :: rest =>
    if c = '\n' then none
    else if rest.head? = some '\x7d' then some ([c], 2)
    else
      match interpG2 rest with
      | some (p, n) => some (c :: p, n + 1)
      | none => none

/-- `([^"]*?)"`: everything before the first double quote. -/
def interpG3 : List Char → Option (List Char × Nat)
  | [] => none
  | c :: rest =>
    if c = '"' then some ([], 1)
    else
      match interpG3 rest with
      | some (p, n) => some (c :: p, n + 1)
      | none => none

/-- After a `#{`: the expression, its closing brace, and the string tail. -/
def interpInner (t : List Char) : Option ((List Char × List Char) × Nat) :=
  match interpG2 t with
  | some (g2, n2) =>
    match interpG3 (t.drop n2) with
    | some (g3, n3) => some ((g2, g3), n2 + n3)
    | none => none
  | none => none

/-- `([^"]*?)#\{…`: grow the first group over non-quote characters, trying the
interpolation at each `#{` candidate (backtracking to later candidates when
the inner parts fail). -/
def interpScan : List Char → Option ((List Char × List Char × List Char) × Nat)
  | [] => none
  | c :: rest =>
    if c = '"' then none
    else if isPfx ['#', '\x7b'] (c :: rest) then
      match interpInner (rest.drop 1) with
      | some ((g2, g3), n) => some (([], g2, g3), 2 + n)
      | none =>
        match interpScan rest with
        | some ((g1, g2, g3), n) => some ((c :: g1, g2, g3), n + 1)
        | none => none
    else
      match interpScan rest with
      | some ((g1, g2, g3), n) => some ((c :: g1, g2, g3), n + 1)
      | none => none

/-- `"([^"]*?)#\{(.+?)\}([^"]*?)"` → `"\1{{ \2 }}\3"`. -/
def tryInterp (s : List Char) : Option (List Char × Nat) :=
  match s with
  | c :: rest =>
    if c = '"' then
      match interpScan rest with
      | some ((g1, g2, g3), n) =>
          some ('"' :: (g1 ++ "\x7b\x7b ".toList ++ g2 ++ " \x7d\x7d".toList ++
                g3 ++ ['"']), 1 + n)
      | none => none
    else none
  | [] => none

/-- Steps 1-2 (escape pre-existing target delimiters) and the tag rewrites of
steps up to the `end`-tag conversion, in source order. -/
def erbSteps1to8 (erb : List Char) : List Char :=
  subAll tryEndTag (subAll tryEachTag (subAll tryElseTag (subAll tryElsifTag
    (subAll tryIfTag (subAll tryOutputTag
      (subAll (tryLit "\x7d\x7d".toList "\\\x7d\\\x7d".toList)
        (subAll (tryLit "\x7b\x7b".toList "\\\x7b\\\x7b".toList) erb)))))))

/-- The steps after the reconciliation: the generic tag rewrite, the node
attribute rewrites, the special attribute-name replaces, `File.exist?`,
string interpolation, and the reserved-name replaces, in source order. -/
def erbLateSteps (s : List Char) : List Char :=
  subAll (tryLit "\x7b% if name".toList "\x7b% if hostname".toList)
    (subAll (tryLit "\x7b\x7b name \x7d\x7d".toList "\x7b\x7b hostname \x7d\x7d".toList)
      (subAll tryInterp
        (subAll tryFileExist
          (subAll (tryLit "platform_version".toList "ansible_distribution_version".toList)
            (subAll (tryLit "platform".toList "ansible_distribution".toList)
              (subAll (tryLit "ipaddress".toList "ansible_default_ipv4.address".toList)
                (subAll (tryLit "hostname".toList "ansible_hostname".toList)
                  (subAll tryNodeDot
                    (subAll tryNodeSym1
                      (subAll tryNodeSym2
                        (subAll tryNodeSym3
                          (subAll tryNodeBracket1
                            (subAll tryNodeBracket2
                              (subAll tryNodeBracket3
                                (subAll tryGenericTag s)))))))))))))))

/-- `LLMConverter._convert_erb_to_jinja` (the logging is ignored; the
`if not erb_content: return ""` guard is the `isEmpty` test). -/
def convert_erb_to_jinja (erb : List Char) : List Char :=
  if erb.isEmpty then []
  else erbLateSteps (reconcileEnds (erbSteps1to8 erb))

/-! ### Counting lemmas for the close-relabeling step (C5) -/

theorem scanCount_skip (try1 : List Char → Option Nat) :
    ∀ (s : List Char) (k : Nat), scanCount try1 k s = scanCount try1 0 (s.drop k) := by
  intro s
  induction s with
  | nil => intro k; cases k <;> rfl
  | cons c rest ih =>
    intro k
    cases k with
    | zero => rfl
    | succ k' =>
      show scanCount try1 k' rest = scanCount try1 0 (List.drop (k' + 1) (c :: rest))
      rw [List.drop_succ_cons]
      exact ih k'

theorem countSub_nil (pat : List Char) : countSub pat [] = 0 := rfl

theorem countSub_cons_pos (pat : List Char) (c : Char) (s : List Char)
    (h : isPfx pat (c :: s) = true) :
    countSub pat (c :: s) = 1 + countSub pat (s.drop (pat.length - 1)) := by
  show (match tryOcc pat (c :: s) with
        | some n => 1 + scanCount (tryOcc pat) (n - 1) s
        | none => scanCount (tryOcc pat) 0 s) = _
  rw [show tryOcc pat (c :: s) = some pat.length from by simp [tryOcc, h]]
  show 1 + scanCount (tryOcc pat) (pat.length - 1) s = _
  rw [scanCount_skip]
  rfl

theorem countSub_cons_neg (pat : List Char) (c : Char) (s : List Char)
    (h : isPfx pat (c :: s) = false) :
    countSub pat (c :: s) = countSub pat s := by
  show (match tryOcc pat (c :: s) with
        | some n => 1 + scanCount (tryOcc pat) (n - 1) s
        | none => scanCount (tryOcc pat) 0 s) = _
  rw [show tryOcc pat (c :: s) = none from by simp [tryOcc, h]]
  rfl

theorem replaceNAux_skip (old new : List Char) :
    ∀ (s : List Char) (n k : Nat),
    replaceNAux old new n k s = replaceN old new n (s.drop k) := by
  intro s
  induction s with
  | nil =>
    intro n k
    cases k with
    | zero => rfl
    | succ k' => cases n <;> rfl
  | cons c rest ih =>
    intro n k
    cases k with
    | zero => rfl
    | succ k' =>
      cases n with
      | zero =>
        show replaceNAux old new 0 k' rest =
          replaceN old new 0 (List.drop (k' + 1) (c :: rest))
        rw [List.drop_succ_cons]
        exact ih 0 k'
      | succ n' =>
        show replaceNAux old new (n' + 1) k' rest =
          replaceN old new (n' + 1) (List.drop (k' + 1) (c :: rest))
        rw [List.drop_succ_cons]
        exact ih (n' + 1) k'

theorem replaceN_nil (old new : List Char) (n : Nat) : replaceN old new n [] = [] := by
  cases n <;> rfl

theorem replaceN_zero (old new : List Char) (s : List Char) :
    replaceN old new 0 s = s := by
  cases s <;> rfl

theorem replaceN_cons_pos (old new : List Char) (c : Char) (s : List Char) (n : Nat)
    (h : isPfx old (c :: s) = true) :
    replaceN old new (n + 1) (c :: s) =
      new ++ replaceN old new n (s.drop (old.length - 1)) := by
  show (if isPfx old (c :: s) then new ++ replaceNAux old new n (old.length - 1) s
        else c :: replaceNAux old new (n + 1) 0 s) = _
  rw [if_pos h, replaceNAux_skip]

theorem replaceN_cons_neg (old new : List Char) (c : Char) (s : List Char) (n : Nat)
    (h : isPfx old (c :: s) = false) :
    replaceN old new (n + 1) (c :: s) = c :: replaceN old new (n + 1) s := by
  show (if isPfx old (c :: s) then new ++ replaceNAux old new n (old.length - 1) s
        else c :: replaceNAux old new (n + 1) 0 s) = _
  rw [if_neg (by simp [h])]
  rfl

theorem isPfx_decomp {α : Type} [DecidableEq α] :
    ∀ (pat s : List α), isPfx pat s = true → s = pat ++ s.drop pat.length := by
  intro pat
  induction pat with
  | nil => intro s _; simp
  | cons a as ih =>
    intro s h
    cases s with
    | nil => cases h
    | cons b rest =>
      simp only [isPfx, Bool.and_eq_true, decide_eq_true_eq] at h
      obtain ⟨hab, hrest⟩ := h
      subst hab
      simpa using ih rest hrest

/-- `{% endfor %}` never matches inside or across an emitted `{% endif %}`
(the tags differ at their seventh character and `{` occurs only at their
heads), so counting skips over it. -/
theorem count_endfor_after_endif (X : List Char) :
    countSub endforTag (endifTag ++ X) = countSub endforTag X := rfl

theorem count_endif_after_endif (X : List Char) :
    countSub endifTag (endifTag ++ X) = 1 + countSub endifTag X := rfl

theorem count_endif_after_endfor (X : List Char) :
    countSub endifTag (endforTag ++ X) = countSub endifTag X := rfl

/-- The replacement scan walks over a pre-existing `{% endif %}` unchanged. -/
theorem replaceN_after_endif (X : List Char) (n : Nat) :
    replaceN endforTag endifTag n (endifTag ++ X) =
      endifTag ++ replaceN endforTag endifTag n X := by
  cases n with
  | zero => rw [replaceN_zero, replaceN_zero]
  | succ m => rfl

/-- A brace-free pattern that matches the output of the replacement already
matched the input: the replacement only substitutes `{`-headed tags for
`{`-headed tags, and a brace-free pattern cannot straddle their heads. -/
theorem isPfx_replaceN_transfer :
    ∀ (s t : List Char) (n : Nat), '\x7b' ∉ t →
    isPfx t (replaceN endforTag endifTag n s) = true → isPfx t s = true := by
  intro s
  induction s with
  | nil =>
    intro t n _ h
    rwa [replaceN_nil] at h
  | cons c s' ih =>
    intro t n ht h
    cases n with
    | zero => rwa [replaceN_zero] at h
    | succ m =>
      cases hm : isPfx endforTag (c :: s') with
      | false =>
        rw [replaceN_cons_neg _ _ _ _ _ hm] at h
        cases t with
        | nil => rfl
        | cons a t' =>
          simp only [isPfx, Bool.and_eq_true, decide_eq_true_eq] at h ⊢
          refine ⟨h.1, ?_⟩
          exact ih t' (m + 1) (fun hmem => ht (List.mem_cons_of_mem a hmem)) h.2
      | true =>
        rw [replaceN_cons_pos _ _ _ _ _ hm] at h
        cases t with
        | nil => rfl
        | cons a t' =>
          rw [show endifTag ++ replaceN endforTag endifTag m
                (s'.drop (endforTag.length - 1)) =
              '\x7b' :: ("% endif %\x7d".toList ++ replaceN endforTag endifTag m
                (s'.drop (endforTag.length - 1))) from rfl] at h
          simp only [isPfx, Bool.and_eq_true, decide_eq_true_eq] at h
          exact absurd (List.mem_cons.mpr (Or.inl h.1.symm)) ht

theorem isPfx_endfor_replaceN (c : Char) (s : List Char) (n : Nat)
    (h : isPfx endforTag (c :: replaceN endforTag endifTag n s) = true) :
    isPfx endforTag (c :: s) = true := by
  rw [show endforTag = '\x7b' :: "% endfor %\x7d".toList from rfl] at h ⊢
  simp only [isPfx, Bool.and_eq_true, decide_eq_true_eq] at h ⊢
  exact ⟨h.1, isPfx_replaceN_transfer s _ n (by decide) h.2⟩

theorem isPfx_endif_replaceN (c : Char) (s : List Char) (n : Nat)
    (h : isPfx endifTag (c :: replaceN endforTag endifTag n s) = true) :
    isPfx endifTag (c :: s) = true := by
  rw [show endifTag = '\x7b' :: "% endif %\x7d".toList from rfl] at h ⊢
  simp only [isPfx, Bool.and_eq_true, decide_eq_true_eq] at h ⊢
  exact ⟨h.1, isPfx_replaceN_transfer s _ n (by decide) h.2⟩

/-- Replacing `n` loop-closes removes `min n count` of them from the count. -/
theorem replaceN_count_endfor :
    ∀ (N : Nat) (s : List Char), s.length ≤ N → ∀ n : Nat,
    countSub endforTag (replaceN endforTag endifTag n s) +
      min n (countSub endforTag s) = countSub endforTag s := by
  intro N
  induction N with
  | zero =>
    intro s hs n
    have h0 : s = [] := List.length_eq_zero.mp (Nat.le_zero.mp hs)
    subst h0
    rw [replaceN_nil]
    show countSub endforTag [] + min n (countSub endforTag []) = countSub endforTag []
    rw [countSub_nil]
    simp
  | succ N ih =>
    intro s hs n
    cases s with
    | nil =>
      rw [replaceN_nil]
      rw [countSub_nil]
      simp
    | cons c s' =>
      cases n with
      | zero => rw [replaceN_zero]; simp
      | succ m =>
        simp only [List.length_cons] at hs
        cases hm : isPfx endforTag (c :: s') with
        | true =>
          rw [replaceN_cons_pos _ _ _ _ _ hm, count_endfor_after_endif,
            countSub_cons_pos _ _ _ hm]
          have hY : (s'.drop (endforTag.length - 1)).length ≤ N := by
            have := List.length_drop (endforTag.length - 1) s'
            omega
          have hIH := ih (s'.drop (endforTag.length - 1)) hY m
          omega
        | false =>
          rw [replaceN_cons_neg _ _ _ _ _ hm]
          have hpf : isPfx endforTag
              (c :: replaceN endforTag endifTag (m + 1) s') = false := by
            cases hx : isPfx endforTag (c :: replaceN endforTag endifTag (m + 1) s') with
            | false => rfl
            | true => rw [isPfx_endfor_replaceN c s' (m + 1) hx] at hm; cases hm
          rw [countSub_cons_neg _ _ _ hpf, countSub_cons_neg _ _ _ hm]
          exact ih s' (by omega) (m + 1)

/-- Each replacement adds exactly one conditional-close to the count. -/
theorem replaceN_count_endif :
    ∀ (N : Nat) (s : List Char), s.length ≤ N → ∀ n : Nat,
    countSub endifTag (replaceN endforTag endifTag n s) =
      countSub endifTag s + min n (countSub endforTag s) := by
  intro N
  induction N with
  | zero =>
    intro s hs n
    have h0 : s = [] := List.length_eq_zero.mp (Nat.le_zero.mp hs)
    subst h0
    rw [replaceN_nil, countSub_nil, countSub_nil]
    simp
  | succ N ih =>
    intro s hs n
    cases s with
    | nil =>
      rw [replaceN_nil, countSub_nil, countSub_nil]
      simp
    | cons c s' =>
      cases n with
      | zero => rw [replaceN_zero]; simp
      | succ m =>
        simp only [List.length_cons] at hs
        cases hm : isPfx endforTag (c :: s') with
        | true =>
          have hd := isPfx_decomp endforTag (c :: s') hm
          rw [replaceN_cons_pos _ _ _ _ _ hm, count_endif_after_endif,
            countSub_cons_pos _ _ _ hm,
            show countSub endifTag (c :: s') =
              countSub endifTag (endforTag ++ (c :: s').drop endforTag.length) from
                by rw [← hd],
            count_endif_after_endfor,
            show (c :: s').drop endforTag.length = s'.drop (endforTag.length - 1) from rfl]
          have hY : (s'.drop (endforTag.length - 1)).length ≤ N := by
            have := List.length_drop (endforTag.length - 1) s'
            omega
          have hIH := ih (s'.drop (endforTag.length - 1)) hY m
          omega
        | false =>
          cases hm2 : isPfx endifTag (c :: s') with
          | true =>
            have hd := isPfx_decomp endifTag (c :: s') hm2
            rw [hd, replaceN_after_endif, count_endif_after_endif,
              count_endif_after_endif, count_endfor_after_endif]
            have hZ : ((c :: s').drop endifTag.length).length ≤ N := by
              rw [show (c :: s').drop endifTag.length =
                s'.drop (endifTag.length - 1) from rfl]
              have := List.length_drop (endifTag.length - 1) s'
              omega
            have hIH := ih ((c :: s').drop endifTag.length) hZ (m + 1)
            omega
          | false =>
            rw [replaceN_cons_neg _ _ _ _ _ hm]
            have hpf2 : isPfx endifTag
                (c :: replaceN endforTag endifTag (m + 1) s') = false := by
              cases hx : isPfx endifTag (c :: replaceN endforTag endifTag (m + 1) s') with
              | false => rfl
              | true => rw [isPfx_endif_replaceN c s' (m + 1) hx] at hm2; cases hm2
            rw [countSub_cons_neg _ _ _ hpf2, countSub_cons_neg _ _ _ hm2,
              countSub_cons_neg _ _ _ hm]
            exact ih s' (by omega) (m + 1)

/-- The reconciliation arithmetic at the count level. -/
theorem reconcile_counts (s : List Char) (K M : Nat)
    (hfor : countForOpens s = K) (hend : countSub endforTag s = K + M)
    (hendif : countSub endifTag s = 0) :
    countSub endforTag (reconcileEnds s) = K ∧
    countSub endifTag (reconcileEnds s) = M := by
  unfold reconcileEnds
  rw [hfor, hend]
  by_cases hKM : K < K + M
  · rw [if_pos hKM]
    have hA := replaceN_count_endfor s.length s le_rfl (K + M - K)
    have hB := replaceN_count_endif s.length s le_rfl (K + M - K)
    rw [hend] at hA hB
    rw [hendif] at hB
    exact ⟨by omega, by omega⟩
  · rw [if_neg hKM]
    exact ⟨by omega, by omega⟩

/-- C5: at the reconciliation step, an intermediate text (the output of the
tag-rewriting steps up to the generic block-close rewrite) containing `K`
loop-open tags and `K + M` emitted loop-close tags (and no conditional-close,
since none has been emitted yet) ends up with exactly `K` loop-closes and
exactly `M` conditional-closes. -/
theorem erb_close_relabel_counts (t : List Char) (K M : Nat)
    (hfor : countForOpens (erbSteps1to8 t) = K)
    (hend : countSub endforTag (erbSteps1to8 t) = K + M)
    (hendif : countSub endifTag (erbSteps1to8 t) = 0) :
    countSub endforTag (reconcileEnds (erbSteps1to8 t)) = K ∧
    countSub endifTag (reconcileEnds (erbSteps1to8 t)) = M :=
  reconcile_counts _ K M hfor hend hendif

/-- Witness for C5: a conditional containing a loop (`K = 1`, `M = 1`). -/
theorem erb_close_relabel_counts_witness :
    countForOpens (erbSteps1to8 ("<% if a %><% xs.each do |i| %><% end %><% end %>".toList)) = 1 ∧
    countSub endforTag (erbSteps1to8 ("<% if a %><% xs.each do |i| %><% end %><% end %>".toList)) = 1 + 1 ∧
    countSub endifTag (erbSteps1to8 ("<% if a %><% xs.each do |i| %><% end %><% end %>".toList)) = 0 ∧
    (countSub endforTag (reconcileEnds (erbSteps1to8 ("<% if a %><% xs.each do |i| %><% end %><% end %>".toList))) = 1 ∧
     countSub endifTag (reconcileEnds (erbSteps1to8 ("<% if a %><% xs.each do |i| %><% end %><% end %>".toList))) = 1) :=
  ⟨by decide, by decide, by decide,
   erb_close_relabel_counts _ 1 1 (by decide) (by decide) (by decide)⟩

/-! ### Idempotence analysis (C6) -/

/-- C6 counterexample: the template `<%= x %>` contains no control-flow tags,
yet the escape step of a second pass re-escapes the expression tag produced by
the first pass, so the transpiler is not idempotent on it. -/
theorem convert_not_idempotent :
    convert_erb_to_jinja ("<%= x %>".toList) = "\x7b\x7b x \x7d\x7d".toList ∧
    convert_erb_to_jinja (convert_erb_to_jinja ("<%= x %>".toList)) =
      "\\\x7b\\\x7b x \\\x7d\\\x7d".toList ∧
    convert_erb_to_jinja (convert_erb_to_jinja ("<%= x %>".toList)) ≠
      convert_erb_to_jinja ("<%= x %>".toList) :=
  ⟨by decide, by decide, by decide⟩

/-- Python `sub in s`. -/
def hasSub (pat : List Char) : List Char → Bool
  | [] => pat.isEmpty
  | c :: s => isPfx pat (c :: s) || hasSub pat s

theorem hasSub_of_suffix_pfx (pat : List Char) :
    ∀ (s t : List Char), t <:+ s → isPfx pat t = true → hasSub pat s = true := by
  intro s
  induction s with
  | nil =>
    intro t hts hp
    have ht : t = [] := List.suffix_nil.mp hts
    subst ht
    cases pat with
    | nil => rfl
    | cons a as => cases hp
  | cons c rest ih =>
    intro t hts hp
    obtain ⟨pre, hpre⟩ := hts
    cases pre with
    | nil =>
      simp only [List.nil_append] at hpre
      subst hpre
      show (isPfx pat (c :: rest) || hasSub pat rest) = true
      rw [hp]
      rfl
    | cons d pre2 =>
      simp only [List.cons_append, List.cons.injEq] at hpre
      show (isPfx pat (c :: rest) || hasSub pat rest) = true
      rw [ih t ⟨pre2, hpre.2⟩ hp]
      simp

/-- A substitution pass whose matcher never fires is the identity. -/
theorem subAll_id (try1 : List Char → Option (List Char × Nat)) :
    ∀ s : List Char, (∀ t, t <:+ s → try1 t = none) → subAll try1 s = s := by
  intro s
  induction s with
  | nil => intro _; rfl
  | cons c rest ih =>
    intro h
    have h1 : try1 (c :: rest) = none := h _ List.suffix_rfl
    have h2 : subAll try1 rest = rest :=
      ih (fun t ht => h t (ht.trans (List.suffix_cons c rest)))
    show (match try1 (c :: rest) with
      | some (rep, n) => rep ++ scanSub try1 (n - 1) rest
      | none => c :: scanSub try1 0 rest) = c :: rest
    rw [h1]
    show c :: subAll try1 rest = c :: rest
    rw [h2]

/-- If the matcher only fires on suffixes starting with a trigger literal and
the text does not contain it, the pass is the identity. -/
theorem subAll_id_of_trigger (try1 : List Char → Option (List Char × Nat))
    (trig : List Char)
    (hfire : ∀ t r, try1 t = some r → isPfx trig t = true)
    (s : List Char) (hs : hasSub trig s = false) :
    subAll try1 s = s := by
  apply subAll_id
  intro t ht
  cases hr : try1 t with
  | none => rfl
  | some r =>
    rw [hasSub_of_suffix_pfx trig s t ht (hfire t r hr)] at hs
    cases hs

theorem isPfx_weaken {α : Type} [DecidableEq α] :
    ∀ (p q t : List α), isPfx (p ++ q) t = true → isPfx p t = true := by
  intro p
  induction p with
  | nil => intro q t _; rfl
  | cons a p2 ih =>
    intro q t h
    cases t with
    | nil => cases h
    | cons b t2 =>
      simp only [List.cons_append, isPfx, Bool.and_eq_true] at h ⊢
      exact ⟨h.1, ih q t2 h.2⟩

theorem tryLit_fire (pat rep : List Char) :
    ∀ t r, tryLit pat rep t = some r → isPfx pat t = true := by
  intro t r h
  unfold tryLit at h
  split at h
  · assumption
  · cases h

theorem tryOutputTag_fire : ∀ t r, tryOutputTag t = some r →
    isPfx ['<', '%'] t = true := by
  intro t r h
  unfold tryOutputTag at h
  split at h
  · rename_i hc
    exact isPfx_weaken ['<', '%'] ['='] t hc
  · cases h

theorem tryIfTag_fire : ∀ t r, tryIfTag t = some r →
    isPfx ['<', '%'] t = true := by
  intro t r h
  unfold tryIfTag at h
  split at h
  · assumption
  · cases h

theorem tryElsifTag_fire : ∀ t r, tryElsifTag t = some r →
    isPfx ['<', '%'] t = true := by
  intro t r h
  unfold tryElsifTag at h
  split at h
  · assumption
  · cases h

theorem tryElseTag_fire : ∀ t r, tryElseTag t = some r →
    isPfx ['<', '%'] t = true := by
  intro t r h
  unfold tryElseTag at h
  split at h
  · assumption
  · cases h

theorem tryEachTag_fire : ∀ t r, tryEachTag t = some r →
    isPfx ['<', '%'] t = true := by
  intro t r h
  unfold tryEachTag at h
  split at h
  · assumption
  · cases h

theorem tryEndTag_fire : ∀ t r, tryEndTag t = some r →
    isPfx ['<', '%'] t = true := by
  intro t r h
  unfold tryEndTag at h
  split at h
  · assumption
  · cases h

theorem tryGenericTag_fire : ∀ t r, tryGenericTag t = some r →
    isPfx ['<', '%'] t = true := by
  intro t r h
  unfold tryGenericTag at h
  split at h
  · assumption
  · cases h

theorem tryNodeBracket3_fire : ∀ t r, tryNodeBracket3 t = some r →
    isPfx "node".toList t = true := by
  intro t r h
  unfold tryNodeBracket3 at h
  split at h
  · rename_i hc
    exact isPfx_weaken "node".toList "['".toList t hc
  · cases h

theorem tryNodeBracket2_fire : ∀ t r, tryNodeBracket2 t = some r →
    isPfx "node".toList t = true := by
  intro t r h
  unfold tryNodeBracket2 at h
  split at h
  · rename_i hc
    exact isPfx_weaken "node".toList "['".toList t hc
  · cases h

theorem tryNodeBracket1_fire : ∀ t r, tryNodeBracket1 t = some r →
    isPfx "node".toList t = true := by
  intro t r h
  unfold tryNodeBracket1 at h
  split at h
  · rename_i hc
    exact isPfx_weaken "node".toList "['".toList t hc
  · cases h

theorem tryNodeSym3_fire : ∀ t r, tryNodeSym3 t = some r →
    isPfx "node".toList t = true := by
  intro t r h
  unfold tryNodeSym3 at h
  split at h
  · rename_i hc
    exact isPfx_weaken "node".toList "[:".toList t hc
  · cases h

theorem tryNodeSym2_fire : ∀ t r, tryNodeSym2 t = some r →
    isPfx "node".toList t = true := by
  intro t r h
  unfold tryNodeSym2 at h
  split at h
  · rename_i hc
    exact isPfx_weaken "node".toList "[:".toList t hc
  · cases h

theorem tryNodeSym1_fire : ∀ t r, tryNodeSym1 t = some r →
    isPfx "node".toList t = true := by
  intro t r h
  unfold tryNodeSym1 at h
  split at h
  · rename_i hc
    exact isPfx_weaken "node".toList "[:".toList t hc
  · cases h

theorem tryNodeDot_fire : ∀ t r, tryNodeDot t = some r →
    isPfx "node".toList t = true := by
  intro t r h
  unfold tryNodeDot at h
  split at h
  · rename_i hc
    exact isPfx_weaken "node".toList ".".toList t hc
  · cases h

theorem tryFileExist_fire : ∀ t r, tryFileExist t = some r →
    isPfx "File.exist?(".toList t = true := by
  intro t r h
  unfold tryFileExist at h
  split at h
  · assumption
  · cases h

theorem tryInterp_fire : ∀ t r, tryInterp t = some r →
    isPfx ['"'] t = true := by
  intro t r h
  unfold tryInterp at h
  split at h
  · split at h
    · rename_i hq
      subst hq
      rfl
    · cases h
  · cases h

theorem countSub_zero_of_no_trigger (pat trig : List Char)
    (hw : ∀ t, isPfx pat t = true → isPfx trig t = true) :
    ∀ s, hasSub trig s = false → countSub pat s = 0 := by
  intro s
  induction s with
  | nil => intro _; rfl
  | cons c rest ih =>
    intro hs
    have hs2 : hasSub trig rest = false := by
      cases hx : hasSub trig rest
      · rfl
      · rw [show hasSub trig (c :: rest) =
          (isPfx trig (c :: rest) || hasSub trig rest) from rfl, hx] at hs
        simp at hs
    have hp : isPfx pat (c :: rest) = false := by
      cases hx : isPfx pat (c :: rest)
      · rfl
      · rw [show hasSub trig (c :: rest) =
          (isPfx trig (c :: rest) || hasSub trig rest) from rfl, hw _ hx] at hs
        simp at hs
    rw [countSub_cons_neg _ _ _ hp]
    exact ih hs2

/-- With no `{%` in the text there are no loop-closes to relabel. -/
theorem reconcileEnds_id (s : List Char) (hs : hasSub ['\x7b', '%'] s = false) :
    reconcileEnds s = s := by
  unfold reconcileEnds
  rw [countSub_zero_of_no_trigger endforTag ['\x7b', '%']
    (fun t ht => isPfx_weaken ['\x7b', '%'] " endfor %\x7d".toList t ht) s hs]
  rw [if_neg (Nat.not_lt_zero _)]

/-- C6 amended (identity part): on a template containing none of the trigger
substrings of any pipeline step, the transpiler is the identity, and therefore
idempotent. -/
theorem convert_identity_on_plain (t : List Char)
    (h1 : hasSub ['\x7b', '\x7b'] t = false)
    (h2 : hasSub ['\x7d', '\x7d'] t = false)
    (h3 : hasSub ['<', '%'] t = false)
    (h4 : hasSub ['\x7b', '%'] t = false)
    (h5 : hasSub "node".toList t = false)
    (h6 : hasSub "hostname".toList t = false)
    (h7 : hasSub "ipaddress".toList t = false)
    (h8 : hasSub "platform".toList t = false)
    (h9 : hasSub "File.exist?(".toList t = false)
    (h10 : hasSub ['"'] t = false) :
    convert_erb_to_jinja t = t ∧
    convert_erb_to_jinja (convert_erb_to_jinja t) = convert_erb_to_jinja t := by
  have hid : convert_erb_to_jinja t = t := by
    cases t with
    | nil => rfl
    | cons c rest =>
      unfold convert_erb_to_jinja
      rw [if_neg (by simp)]
      have e18 : erbSteps1to8 (c :: rest) = c :: rest := by
        unfold erbSteps1to8
        rw [subAll_id_of_trigger _ _
          (tryLit_fire "\x7b\x7b".toList "\\\x7b\\\x7b".toList) _ h1]
        rw [subAll_id_of_trigger _ _
          (tryLit_fire "\x7d\x7d".toList "\\\x7d\\\x7d".toList) _ h2]
        rw [subAll_id_of_trigger _ _ tryOutputTag_fire _ h3]
        rw [subAll_id_of_trigger _ _ tryIfTag_fire _ h3]
        rw [subAll_id_of_trigger _ _ tryElsifTag_fire _ h3]
        rw [subAll_id_of_trigger _ _ tryElseTag_fire _ h3]
        rw [subAll_id_of_trigger _ _ tryEachTag_fire _ h3]
        rw [subAll_id_of_trigger _ _ tryEndTag_fire _ h3]
      have eLate : erbLateSteps (c :: rest) = c :: rest := by
        unfold erbLateSteps
        rw [subAll_id_of_trigger _ _ tryGenericTag_fire _ h3]
        rw [subAll_id_of_trigger _ _ tryNodeBracket3_fire _ h5]
        rw [subAll_id_of_trigger _ _ tryNodeBracket2_fire _ h5]
        rw [subAll_id_of_trigger _ _ tryNodeBracket1_fire _ h5]
        rw [subAll_id_of_trigger _ _ tryNodeSym3_fire _ h5]
        rw [subAll_id_of_trigger _ _ tryNodeSym2_fire _ h5]
        rw [subAll_id_of_trigger _ _ tryNodeSym1_fire _ h5]
        rw [subAll_id_of_trigger _ _ tryNodeDot_fire _ h5]
        rw [subAll_id_of_trigger _ _
          (tryLit_fire "hostname".toList "ansible_hostname".toList) _ h6]
        rw [subAll_id_of_trigger _ _
          (tryLit_fire "ipaddress".toList "ansible_default_ipv4.address".toList) _ h7]
        rw [subAll_id_of_trigger _ _
          (tryLit_fire "platform".toList "ansible_distribution".toList) _ h8]
        rw [subAll_id_of_trigger
          (tryLit "platform_version".toList "ansible_distribution_version".toList)
          "platform".toList
          (fun u r hu => isPfx_weaken "platform".toList "_version".toList u
            (tryLit_fire "platform_version".toList
              "ansible_distribution_version".toList u r hu)) _ h8]
        rw [subAll_id_of_trigger _ _ tryFileExist_fire _ h9]
        rw [subAll_id_of_trigger _ _ tryInterp_fire _ h10]
        rw [subAll_id_of_trigger
          (tryLit "\x7b\x7b name \x7d\x7d".toList "\x7b\x7b hostname \x7d\x7d".toList)
          ['\x7b', '\x7b']
          (fun u r hu => isPfx_weaken ['\x7b', '\x7b'] " name \x7d\x7d".toList u
            (tryLit_fire "\x7b\x7b name \x7d\x7d".toList
              "\x7b\x7b hostname \x7d\x7d".toList u r hu)) _ h1]
        rw [subAll_id_of_trigger
          (tryLit "\x7b% if name".toList "\x7b% if hostname".toList)
          ['\x7b', '%']
          (fun u r hu => isPfx_weaken ['\x7b', '%'] " if name".toList u
            (tryLit_fire "\x7b% if name".toList "\x7b% if hostname".toList u r hu)) _ h4]
      rw [e18, reconcileEnds_id _ h4, eLate]
  exact ⟨hid, by rw [hid]; exact hid⟩

/-- Witness for C6's amended statement. -/
theorem convert_identity_on_plain_witness :
    hasSub ['\x7b', '\x7b'] ("hello world".toList) = false ∧
    hasSub ['"'] ("hello world".toList) = false ∧
    (convert_erb_to_jinja ("hello world".toList) = "hello world".toList ∧
     convert_erb_to_jinja (convert_erb_to_jinja ("hello world".toList)) =
       convert_erb_to_jinja ("hello world".toList)) :=
  ⟨by decide, by decide,
   convert_identity_on_plain ("hello world".toList) (by decide) (by decide)
     (by decide) (by decide) (by decide) (by decide) (by decide) (by decide)
     (by decide) (by decide)⟩

end ChefToAnsible
